import Mathlib

/-!
Verification of the dependency-graph engine of `requirements_interactive.py`.

The Python program parses requirement records, builds a directed dependency
graph with networkx, computes hierarchical levels (topological pass with a
BFS fallback on cyclic graphs), per-node ancestor/descendant sets, the list
of elementary cycles, and serves interactive queries (ancestors, descendants,
neighborhood, attribute filters, cycle display) from precomputed data.

This file is a shallow embedding of that engine.  Python strings are Lean
`String`s (`List Char` under the hood), `NaN`/missing cells are `Option`,
Python dicts keyed by node id are association lists `List (String × α)`
(insertion-ordered, as Python dicts are), and the `networkx` library calls
are modelled by their operational behavior (noted at each definition).
All definitions are executable; loops that are `while` loops in Python or
inside networkx are written with an explicit fuel argument that is proved
sufficient, so that the kernel can evaluate them on concrete inputs.
-/

/-! ## Dependency reference parser (`parse_dependencies`, source lines 64-76) -/

/-- Decimal digits of `n`, most significant first, with a fuel argument
(`fuel ≥ n` always suffices since `n / 10` loses at least one digit per
step for `n > 0`).  Models Python's decimal rendering used by `f'RM-{i:03d}'`. -/
def natDigitsAux : Nat → Nat → List Char
  | 0, _ => []
  | _, 0 => []
  | fuel + 1, n => natDigitsAux fuel (n / 10) ++ [Char.ofNat (48 + n % 10)]

/-- Decimal representation of a natural number, as Python renders an `int`. -/
def natDigits (n : Nat) : List Char :=
  if n = 0 then ['0'] else natDigitsAux n n

/-- Models the Python format spec `{i:03d}`: the decimal digits of `i`,
left-padded with `'0'` to a minimum width of 3. -/
def fmt3 (i : Nat) : List Char :=
  List.replicate (3 - (natDigits i).length) '0' ++ natDigits i

/-- One expanded range element, Python `f'RM-{i:03d}'`. -/
def fmtRM (i : Nat) : String :=
  String.mk ('R' :: 'M' :: '-' :: fmt3 i)

/-- Numeric value of a decimal digit string, as Python `int()` reads it
(leading zeros allowed). -/
def digitsVal (l : List Char) : Nat :=
  l.foldl (fun a c => 10 * a + (c.toNat - 48)) 0

/-- Models `re.match(r'RM-(\d+)\.\.RM-(\d+)', s)`: anchored at the start,
greedy digit runs, trailing characters ignored.  Returns the two captured
numbers on success. -/
def rangeMatch (s : List Char) : Option (Nat × Nat) :=
  match s with
  | 'R' :: 'M' :: '-' :: r1 =>
    let d1 := r1.takeWhile Char.isDigit
    if d1.isEmpty then none
    else
      match r1.dropWhile Char.isDigit with
      | '.' :: '.' :: 'R' :: 'M' :: '-' :: r2 =>
        let d2 := r2.takeWhile Char.isDigit
        if d2.isEmpty then none else some (digitsVal d1, digitsVal d2)
      | _ => none
  | _ => none

/-- Models `re.findall(r'RM-\d+', s)`: scan left to right, at each position
try to match `RM-` followed by a maximal nonempty digit run; on success emit
the match and continue after it, otherwise advance one character.  The fuel
(`s.length` at the top call) bounds the scan: every step consumes at least
one character. -/
def findIdsAux : Nat → List Char → List (List Char)
  | 0, _ => []
  | fuel + 1, cs =>
    match cs with
    | 'R' :: 'M' :: '-' :: r =>
      let d := r.takeWhile Char.isDigit
      if d.isEmpty then findIdsAux fuel ('M' :: '-' :: r)
      else ('R' :: 'M' :: '-' :: d) :: findIdsAux fuel (r.dropWhile Char.isDigit)
    | _ :: rest => findIdsAux fuel rest
    | [] => []

/-- All `RM-\d+` substrings of `cs`, in order of appearance. -/
def findIds (cs : List Char) : List (List Char) :=
  findIdsAux cs.length cs

/-- Source `parse_dependencies` (lines 64-76).  `none` models a `NaN` cell.
The emptiness test compares the raw string with the placeholder em-dash
(written here on the underlying character list, which is the same test) and
with all-whitespace content (Python `str.strip`; the exact whitespace set
differs in exotic code points only, which no identifier text contains).
A range match short-circuits the scan; otherwise every `RM-\d+` token is
collected. -/
def parse_dependencies (o : Option String) : List String :=
  match o with
  | none => []
  | some s =>
    if s.data = ['—'] ∨ s.data.all Char.isWhitespace then []
    else
      match rangeMatch s.data with
      | some (a, b) => (List.range' a (b + 1 - a)).map fmtRM
      | none => (findIds s.data).map String.mk

/-! ## Requirement records and node attributes (`build_graph`, lines 86-114) -/

/-- One CSV row.  Field names follow the source columns `ID`, `Área`,
`Funcionalidad`, `Requisito_detallado`, `Prioridad`, `Estatus`,
`Versión_objetivo`, `Owner`, `Roles`, `Dependencias` (ASCII spellings).
`none` models a `NaN` cell (`pd.isna`). -/
structure Record where
  id : String
  area : Option String
  funcionalidad : Option String
  requisito_detallado : Option String
  prioridad : Option String
  estatus : Option String
  version_objetivo : Option String
  owner : Option String
  roles : Option String
  dependencias : Option String
deriving DecidableEq

/-- The attribute bundle `build_graph` attaches to each node. -/
structure NodeAttrs where
  area : String
  funcionalidad : String
  requisito : String
  prioridad : String
  estatus : String
  version : String
  owner : String
  roles : String
  dependencias : String
deriving DecidableEq

/-- Source lines 92-94: detailed text longer than 300 characters is cut to
300 characters plus an ellipsis marker. -/
def truncate300 (s : String) : String :=
  if s.length > 300 then String.mk (s.data.take 300) ++ "..." else s

/-- The keyword arguments of `G.add_node` (lines 96-107), with the source's
defaults for missing cells. -/
def mkAttrs (r : Record) : NodeAttrs where
  area := r.area.getD "Unknown"
  funcionalidad := r.funcionalidad.getD "N/A"
  requisito := truncate300 (r.requisito_detallado.getD "N/A")
  prioridad := r.prioridad.getD "Media (P1)"
  estatus := r.estatus.getD "N/A"
  version := r.version_objetivo.getD "N/A"
  owner := r.owner.getD "N/A"
  roles := r.roles.getD "N/A"
  dependencias := r.dependencias.getD "—"

/-! ## Association-list primitives (Python dict / networkx node map) -/

/-- Keys of an association list, in insertion order. -/
def akeys {α : Type} (ls : List (String × α)) : List String :=
  ls.map Prod.fst

/-- Dict lookup returning `none` for a missing key. -/
def alookup {α : Type} (ls : List (String × α)) (k : String) : Option α :=
  (ls.find? (fun p => p.1 == k)).map Prod.snd

/-- Python `d.get(k, dflt)`. -/
def lookupD {α : Type} (ls : List (String × α)) (k : String) (d : α) : α :=
  (alookup ls k).getD d

/-- Python `k in d`. -/
def hasKey {α : Type} (ls : List (String × α)) (k : String) : Bool :=
  ls.any (fun p => p.1 == k)

/-- Python `d[k] = v` / networkx `add_node`: overwrite in place if the key
exists (keeping its position, as Python dicts do), else append. -/
def aset {α : Type} (ls : List (String × α)) (k : String) (v : α) : List (String × α) :=
  if hasKey ls k then ls.map (fun p => if p.1 == k then (k, v) else p)
  else ls ++ [(k, v)]

/-! ## The graph -/

/-- A networkx `DiGraph` as built by the program: node map in insertion
order, edge list in insertion order with no duplicate pairs. -/
structure Graph where
  nodes : List (String × NodeAttrs)
  edges : List (String × String)

/-- Node identifiers in insertion order (`G.nodes()`). -/
def nodeIds (G : Graph) : List String :=
  akeys G.nodes

/-- networkx `add_edge` on a `DiGraph`: a repeated pair is a no-op. -/
def addEdge (es : List (String × String)) (e : String × String) :
    List (String × String) :=
  if e ∈ es then es else es ++ [e]

/-- Source `build_graph` (lines 86-114): first one `add_node` per row
(duplicate `ID`s overwrite attributes), then for every row an edge from each
parsed dependency to the row's own id, added only when the dependency is a
known node (`if dep in G.nodes`). -/
def build_graph (records : List Record) : Graph :=
  let ns := records.foldl (fun acc r => aset acc r.id (mkAttrs r)) []
  let ids := akeys ns
  let es := records.foldl (fun acc r =>
    (parse_dependencies r.dependencias).foldl (fun acc2 d =>
      if d ∈ ids then addEdge acc2 (d, r.id) else acc2) acc) []
  ⟨ns, es⟩

/-- networkx `G.predecessors(n)`: sources of the in-edges of `n`, in edge
insertion order. -/
def predsOf (G : Graph) (n : String) : List String :=
  (G.edges.filter (fun e => e.2 == n)).map Prod.fst

/-- networkx `G.successors(n)` / `G.neighbors(n)` on a `DiGraph`. -/
def successorsOf (G : Graph) (n : String) : List String :=
  (G.edges.filter (fun e => e.1 == n)).map Prod.snd

/-- networkx `G.in_degree(n)` (no parallel edges, so this is the number of
distinct predecessors). -/
def inDegree (G : Graph) (n : String) : Nat :=
  (G.edges.filter (fun e => e.2 == n)).length

/-! ## Reachability (networkx `descendants` / `ancestors`, lines 367-375)

`nx.descendants(G, s)` is the set of nodes reachable from `s`, with `s`
itself removed from the set unconditionally (networkx computes the
reachable set and discards the source, so a node is never reported as its
own descendant, cycles included).  `nx.ancestors` is the same on the
reversed graph.  The reachable set is computed here as a fixpoint of a
one-step expansion, iterated more times than nodes can ever be added. -/

/-- Add every edge target whose source is already present. -/
def stepOnce (edges : List (String × String)) (s : List String) : List String :=
  edges.foldl (fun acc e => if e.1 ∈ acc ∧ e.2 ∉ acc then acc ++ [e.2] else acc) s

/-- All nodes reachable from `src` (including `src`). -/
def reachableFrom (G : Graph) (src : String) : List String :=
  (stepOnce G.edges)^[G.edges.length + 1] [src]

/-- Models `nx.descendants(G, src)`: reachable set minus the source. -/
def nxDescendants (G : Graph) (src : String) : List String :=
  (reachableFrom G src).filter (fun x => x != src)

/-- Models `nx.ancestors(G, src)`: nodes with a path to `src`, i.e. the
descendants of `src` in the reversed graph, minus the source. -/
def nxAncestors (G : Graph) (src : String) : List String :=
  (reachableFrom ⟨G.nodes, G.edges.map (fun e => (e.2, e.1))⟩ src).filter
    (fun x => x != src)

/-- Source lines 367-375: the per-node `{ancestors, descendants}` map
serialized for the page scripts. -/
def subgraph_data (G : Graph) : List (String × (List String × List String)) :=
  G.nodes.map (fun p => (p.1, (nxAncestors G p.1, nxDescendants G p.1)))

/-! ## Query functions of the embedded page script -/

/-- Outcome of one of the `show*` handlers: either the no-selection warning
toast, or the new set of visible node ids (modelled as a list whose
membership is the set). -/
inductive UIResult where
  | warnNoSelection : UIResult
  | shown : List String → UIResult
deriving DecidableEq

/-- Source `showAncestors` (lines 2398-2412).  With no selection it only
warns.  Otherwise `subgraphData[id]?.ancestors || []` falls back to the
empty list when the id is unknown, and the visible set becomes
`{id} ∪ ancestors`. -/
def showAncestors (subgraphData : List (String × (List String × List String)))
    (selectedNodeId : Option String) : UIResult :=
  match selectedNodeId with
  | none => .warnNoSelection
  | some i =>
    let anc := match alookup subgraphData i with
               | some p => p.1
               | none => []
    .shown (i :: anc)

/-- Source `showDescendants` (lines 2414-2428), same shape. -/
def showDescendants (subgraphData : List (String × (List String × List String)))
    (selectedNodeId : Option String) : UIResult :=
  match selectedNodeId with
  | none => .warnNoSelection
  | some i =>
    let des := match alookup subgraphData i with
               | some p => p.2
               | none => []
    .shown (i :: des)

/-- Source `showNeighborhood` (lines 2430-2448): `{id}` plus both endpoints
of every edge incident to `id` (depth 1). -/
def showNeighborhood (edges : List (String × String))
    (selectedNodeId : Option String) : UIResult :=
  match selectedNodeId with
  | none => .warnNoSelection
  | some i =>
    .shown (edges.foldl (fun acc e =>
      let a1 := if e.1 == i then acc ++ [e.2] else acc
      if e.2 == i then a1 ++ [e.1] else a1) [i])

/-- Source `applyFilters` (lines 2022-2047): a node is kept iff each of the
three dropdown values is empty (JS falsy) or equal to the node's attribute;
the three tests are conjoined. -/
def applyFilters (nodeData : List (String × NodeAttrs))
    (areaFilter priorityFilter versionFilter : String) : List String :=
  (nodeData.filter (fun p =>
    (areaFilter == "" || p.2.area == areaFilter) &&
    (priorityFilter == "" || p.2.prioridad == priorityFilter) &&
    (versionFilter == "" || p.2.version == versionFilter))).map Prod.fst

/-- Source line 341-343: `cycle_nodes`, the union of the nodes of all
enumerated elementary cycles (as a membership list). -/
def cycle_nodes (cycles : List (List String)) : List String :=
  cycles.flatten

/-- Source `showCycleNodes` (lines 1687-1710) together with line 1520: the
page script receives only `cycles[:10]` (`cycles_js`), guards on emptiness,
and shows the union of the nodes of that truncated list, returning it with
the truncated cycle list itself.  `none` models the no-cycles toast. -/
def showCycleNodes (cycles : List (List String)) :
    Option (List String × List (List String)) :=
  let cyclesJS := cycles.take 10
  let hasCycles := !cycles.isEmpty
  if !hasCycles || cyclesJS.isEmpty then none
  else some (cyclesJS.flatten, cyclesJS)

/-! ## Hierarchical levels (`calculate_hierarchical_levels`, lines 117-158)

The source iterates `nx.topological_sort(G)` inside a `try`.  networkx
implements that generator with Kahn's algorithm by generations
(`topological_generations`): it repeatedly yields the current zero-indegree
front, decrementing the stored indegree of each successor and moving it to
the next front when its count reaches zero; when no front remains and the
indegree map is nonempty it raises `NetworkXUnfeasible`.  The `for` body
therefore runs for every yielded node even on a cyclic graph, so the
partially filled `levels` dict survives into the `except` fallback.  The
model below reproduces this: `kahnRun` returns the yielded order and a
feasibility flag, `levelsTopo` is the loop body of lines 128-133, and the
fallback BFS of lines 135-156 starts from the partial dict. -/

/-- The body of the `for node in nx.topological_sort(G)` loop (lines
128-133): roots get level 0, every other node gets
`max(levels.get(pred, 0) for pred in predecessors) + 1`. -/
def levelsTopo (G : Graph) : List String → List (String × Nat) → List (String × Nat)
  | [], levels => levels
  | n :: rest, levels =>
    let ps := predsOf G n
    let v :=
      if ps.isEmpty then 0
      else (ps.map (fun p => lookupD levels p 0)).foldl Nat.max 0 + 1
    levelsTopo G rest (aset levels n v)

/-- One step of the inner loop of `topological_generations`: decrement the
stored indegree of child `c`; if it reaches zero, move `c` from the
indegree map to the next front.  (The Python code would raise a `KeyError`
if `c` were absent from the map; that state is unreachable in any run, and
the default `1` here makes the absent case a no-op.) -/
def processChild (st : List (String × Nat) × List String) (c : String) :
    List (String × Nat) × List String :=
  let im2 := st.1.map (fun p => if p.1 == c then (c, p.2 - 1) else p)
  if lookupD im2 c 1 == 0 then (im2.filter (fun p => p.1 != c), st.2 ++ [c])
  else (im2, st.2)

/-- Expand one generation: every node of the front, in order, decrements all
its successors. -/
def processGen (G : Graph) : List String → List (String × Nat) → List String →
    List (String × Nat) × List String
  | [], im, zs => (im, zs)
  | g :: gen, im, zs =>
    let st := (successorsOf G g).foldl processChild (im, zs)
    processGen G gen st.1 st.2

/-- The generation loop of `topological_generations`, fuel-indexed (each
round strictly shrinks `|indegree map| + |front|`, see
`kahnAuxF_isSome`).  Returns the concatenated yielded generations and
whether the map was exhausted (acyclic graph). -/
def kahnAuxF (G : Graph) : Nat → List (String × Nat) → List String → List String →
    Option (List String × Bool)
  | 0, _, _, _ => none
  | _ + 1, indeg, [], acc => some (acc, indeg.isEmpty)
  | fuel + 1, indeg, z :: zs, acc =>
    let st := processGen G (z :: zs) indeg []
    kahnAuxF G fuel st.1 st.2 (acc ++ (z :: zs))

/-- The initial indegree map `{v: d for v, d in G.in_degree() if d > 0}`. -/
def indegMap0 (G : Graph) : List (String × Nat) :=
  (nodeIds G).filterMap (fun n =>
    if inDegree G n > 0 then some (n, inDegree G n) else none)

/-- The initial zero-indegree front `[v for v, d in G.in_degree() if d == 0]`. -/
def zeroFront0 (G : Graph) : List String :=
  (nodeIds G).filter (fun n => inDegree G n == 0)

/-- Run Kahn's algorithm on `G`: the order in which `nx.topological_sort`
yields nodes (the whole node set iff the graph is acyclic) and the
feasibility flag.  The fuel is provably sufficient (`kahnRun_eq_some`). -/
def kahnRun (G : Graph) : List String × Bool :=
  (kahnAuxF G ((indegMap0 G).length + (zeroFront0 G).length + 1)
    (indegMap0 G) (zeroFront0 G) []).getD ([], false)

/-- The prefix of nodes yielded by `nx.topological_sort(G)` before it either
finishes or raises. -/
def kahnOrder (G : Graph) : List String :=
  (kahnRun G).1

/-- Whether `nx.topological_sort(G)` finishes without raising
`NetworkXUnfeasible`. -/
def kahnFeasible (G : Graph) : Bool :=
  (kahnRun G).2

/-- Node universe used to bound the BFS fallback: every string that can
ever be visited occurs among the node ids or the edge endpoints. -/
def allIds (G : Graph) : List String :=
  nodeIds G ++ G.edges.map (fun e => e.1) ++ G.edges.map (fun e => e.2)

/-- Fuel bound for `bfsLoopF`: see `bfsLoopF_isSome`. -/
def bfsFuel (G : Graph) (queue : List (String × Nat)) (visited : List String) : Nat :=
  ((allIds G).filter (fun x => decide (x ∉ visited))).length * (G.edges.length + 1)
    + queue.length + 1

/-- The fallback BFS of lines 141-151, fuel-indexed.  Pops `(node, level)`
pairs, skips already-visited nodes, records
`levels[node] = max(levels.get(node, 0), level)`, and enqueues the
not-yet-visited successors with `level + 1`.  Returns the final levels dict
and the visited list. -/
def bfsLoopF (G : Graph) : Nat → List (String × Nat) → List String →
    List (String × Nat) → Option (List (String × Nat) × List String)
  | 0, _, _, _ => none
  | _ + 1, [], visited, levels => some (levels, visited)
  | fuel + 1, (n, lv) :: queue, visited, levels =>
    if n ∈ visited then bfsLoopF G fuel queue visited levels
    else
      let levels2 := aset levels n (Nat.max (lookupD levels n 0) lv)
      let pushed := ((successorsOf G n).filter (fun s => decide (s ∉ visited))).map
        (fun s => (s, lv + 1))
      bfsLoopF G fuel (queue ++ pushed) (visited ++ [n]) levels2

/-- Run the fallback BFS to completion (fuel provably sufficient,
`bfsLoopF_isSome`). -/
def bfsRun (G : Graph) (queue : List (String × Nat)) (visited : List String)
    (levels : List (String × Nat)) : List (String × Nat) × List String :=
  (bfsLoopF G (bfsFuel G queue visited) queue visited levels).getD (levels, visited)

/-- Lines 136-139: the BFS seeds — every zero-indegree node, or, when none
exists, the first node of minimum indegree (`min` with a key returns the
first minimizer).  The empty-graph default `""` is unreachable: the
fallback only runs on cyclic graphs, which have nodes. -/
def bfsRoots (G : Graph) : List String :=
  let roots := (nodeIds G).filter (fun n => inDegree G n == 0)
  if roots.isEmpty then
    match nodeIds G with
    | [] => [""]
    | n :: rest => [rest.foldl (fun best m =>
        if inDegree G m < inDegree G best then m else best) n]
  else roots

/-- Lines 141-151 as one function: run the BFS from the seeds over the
partially filled levels dict. -/
def bfs_fallback (G : Graph) (levels0 : List (String × Nat)) :
    List (String × Nat) × List String :=
  bfsRun G ((bfsRoots G).map (fun r => (r, 0))) [] levels0

/-- Lines 154-156: any node still missing from the dict gets level 0. -/
def fillZeros (G : Graph) (levels : List (String × Nat)) : List (String × Nat) :=
  (nodeIds G).foldl (fun ls n => if hasKey ls n then ls else ls ++ [(n, 0)]) levels

/-- Source `calculate_hierarchical_levels` (lines 117-158).  On an acyclic
graph the topological pass covers every node.  On a cyclic graph the pass
aborts after the yielded prefix (the partial dict survives) and the BFS
fallback plus the fill loop finish the job. -/
def calculate_hierarchical_levels (G : Graph) : List (String × Nat) :=
  if kahnFeasible G then levelsTopo G (kahnOrder G) []
  else
    let levels0 := levelsTopo G (kahnOrder G) []
    fillZeros G (bfs_fallback G levels0).1

/-! ## Association-list lemmas -/

theorem alookup_nil {α : Type} (j : String) :
    alookup ([] : List (String × α)) j = none := rfl

theorem alookup_cons {α : Type} (p : String × α) (rest : List (String × α)) (j : String) :
    alookup (p :: rest) j = if p.1 = j then some p.2 else alookup rest j := by
  unfold alookup
  by_cases h : p.1 = j
  · rw [List.find?_cons_of_pos _ (by simp [h])]
    simp [h]
  · rw [List.find?_cons_of_neg _ (by simp [h])]
    simp [h]

theorem hasKey_iff {α : Type} (ls : List (String × α)) (k : String) :
    hasKey ls k = true ↔ k ∈ akeys ls := by
  simp [hasKey, akeys, List.any_eq_true, beq_iff_eq, List.mem_map]

theorem alookup_eq_none {α : Type} {ls : List (String × α)} {k : String} :
    alookup ls k = none ↔ k ∉ akeys ls := by
  induction ls with
  | nil => simp [alookup_nil, akeys]
  | cons p rest ih =>
    rw [alookup_cons]
    by_cases h : p.1 = k
    · simp [h, akeys]
    · rw [if_neg h, ih]
      have hak : akeys (p :: rest) = p.1 :: akeys rest := rfl
      rw [hak]
      constructor
      · intro hn hmem
        rcases List.mem_cons.mp hmem with he | hm
        · exact h he.symm
        · exact hn hm
      · intro hn hm
        exact hn (List.mem_cons.mpr (Or.inr hm))

theorem mem_akeys_of_alookup {α : Type} {ls : List (String × α)} {k : String} {v : α}
    (h : alookup ls k = some v) : k ∈ akeys ls := by
  by_contra hk
  rw [← alookup_eq_none] at hk
  rw [h] at hk
  exact Option.noConfusion hk

theorem alookup_append {α : Type} (l1 l2 : List (String × α)) (k : String) :
    alookup (l1 ++ l2) k =
      match alookup l1 k with
      | some v => some v
      | none => alookup l2 k := by
  induction l1 with
  | nil => simp [alookup_nil]
  | cons p rest ih =>
    by_cases h : p.1 = k
    · simp [alookup_cons, h]
    · simp [alookup_cons, h, ih]

theorem alookup_mem {α : Type} {ls : List (String × α)} {k : String}
    (h : k ∈ akeys ls) : ∃ v, alookup ls k = some v := by
  cases hl : alookup ls k with
  | none => exact absurd h (alookup_eq_none.mp hl)
  | some v => exact ⟨v, rfl⟩

theorem alookup_mapIf {α : Type} (ls : List (String × α)) (c : String) (f : α → α)
    (j : String) :
    alookup (ls.map (fun p => if p.1 == c then (c, f p.2) else p)) j =
      if j = c then (alookup ls c).map f else alookup ls j := by
  induction ls with
  | nil => by_cases h : j = c <;> simp [alookup_nil, h]
  | cons p rest ih =>
    rw [List.map_cons]
    by_cases hpc : p.1 = c
    · rw [if_pos (show (p.1 == c) = true by simp [hpc]), alookup_cons, ih]
      by_cases hjc : j = c
      · subst hjc
        simp [alookup_cons, hpc]
      · have h1 : ¬((c, f p.2).1 = j) := fun he => hjc he.symm
        have h2 : ¬(p.1 = j) := fun he => hjc (he ▸ hpc)
        rw [if_neg h1, if_neg hjc, if_neg hjc, alookup_cons, if_neg h2]
    · rw [if_neg (show ¬((p.1 == c) = true) by simp [hpc]), alookup_cons, ih]
      by_cases hpj : p.1 = j
      · have hjc : ¬(j = c) := fun he => hpc (hpj.trans he)
        rw [if_pos hpj, if_neg hjc, alookup_cons, if_pos hpj]
      · rw [if_neg hpj]
        by_cases hjc : j = c
        · subst hjc
          rw [if_pos rfl, if_pos rfl, alookup_cons, if_neg hpc]
        · rw [if_neg hjc, if_neg hjc, alookup_cons, if_neg hpj]

theorem akeys_mapIf {α : Type} (ls : List (String × α)) (c : String) (f : α → α) :
    akeys (ls.map (fun p => if p.1 == c then (c, f p.2) else p)) = akeys ls := by
  induction ls with
  | nil => rfl
  | cons p rest ih =>
    by_cases hpc : p.1 = c
    · simp [akeys, hpc] at ih ⊢
      exact ih
    · simp only [List.map_cons, if_neg (by simp [hpc] : ¬((p.1 == c) = true))]
      simp [akeys] at ih ⊢
      exact ih

theorem akeys_aset {α : Type} (ls : List (String × α)) (k : String) (v : α) :
    akeys (aset ls k v) = if k ∈ akeys ls then akeys ls else akeys ls ++ [k] := by
  unfold aset
  by_cases h : hasKey ls k = true
  · rw [if_pos h, if_pos ((hasKey_iff ls k).mp h)]
    exact akeys_mapIf ls k (fun _ => v)
  · rw [if_neg h, if_neg (fun hm => h ((hasKey_iff ls k).mpr hm))]
    simp [akeys]

theorem alookup_aset {α : Type} (ls : List (String × α)) (k : String) (v : α)
    (j : String) :
    alookup (aset ls k v) j = if j = k then some v else alookup ls j := by
  unfold aset
  by_cases h : hasKey ls k = true
  · rw [if_pos h, alookup_mapIf ls k (fun _ => v) j]
    by_cases hjk : j = k
    · rw [if_pos hjk, if_pos hjk]
      rcases alookup_mem ((hasKey_iff ls k).mp h) with ⟨w, hw⟩
      simp [hw]
    · rw [if_neg hjk, if_neg hjk]
  · rw [if_neg h, alookup_append]
    by_cases hjk : j = k
    · subst hjk
      have hnone : alookup ls j = none :=
        alookup_eq_none.mpr (fun hm => h ((hasKey_iff ls j).mpr hm))
      rw [hnone]
      simp [alookup_cons]
    · have hkj : ¬(k = j) := fun he => hjk he.symm
      rw [if_neg hjk]
      cases hl : alookup ls j with
      | none => simp [alookup_cons, hkj, alookup_nil]
      | some w => simp

/-! ## Concrete fixtures used by counterexamples and witnesses -/

/-- A record whose only populated cells are the id and the dependency text. -/
def mkRec (i : String) (dep : Option String) : Record :=
  ⟨i, none, none, none, none, none, none, none, none, dep⟩

/-- Two mutually dependent requirements: the smallest cyclic input. -/
def cyc2 : Graph :=
  build_graph [mkRec "RM-001" (some "RM-002"), mkRec "RM-002" (some "RM-001")]

/-- A two-node chain: `RM-002` depends on `RM-001` (acyclic input). -/
def chain2 : Graph :=
  build_graph [mkRec "RM-001" none, mkRec "RM-002" (some "RM-001")]

/-- Eleven disjoint one-node cycles: any enumeration of the elementary
cycles of a graph with eleven self-loops is a permutation of these. -/
def elevenCycles : List (List String) :=
  [["RM-001"], ["RM-002"], ["RM-003"], ["RM-004"], ["RM-005"], ["RM-006"],
   ["RM-007"], ["RM-008"], ["RM-009"], ["RM-010"], ["RM-011"]]

/-! ## C4: a node is never its own networkx ancestor/descendant -/

/-- C4 counterexample: in the two-node cycle `RM-001 ⇄ RM-002` the node
`RM-001` lies on a cycle (both edges are exhibited), yet it is absent from
its own ancestor and descendant sets — `nx.descendants`/`nx.ancestors`
always discard the source.  This refutes the claimed direction "absence of
n from its own ancestor/descendant set implies no cycle passes through n". -/
theorem C4_counterexample :
    ("RM-001", "RM-002") ∈ cyc2.edges ∧ ("RM-002", "RM-001") ∈ cyc2.edges ∧
    "RM-001" ∉ nxDescendants cyc2 "RM-001" ∧
    "RM-001" ∉ nxAncestors cyc2 "RM-001" := by decide

/-- C4 (amended): for every graph and node, `n ∉ ancestors[n]` and
`n ∉ descendants[n]` hold unconditionally — also when `n` lies on a cycle —
because the networkx reachability sets exclude the source by construction;
cycle membership is reported separately (`inCycle`), not through these sets. -/
theorem C4_amended_self_exclusion (G : Graph) (n : String) :
    n ∉ nxAncestors G n ∧ n ∉ nxDescendants G n := by
  refine ⟨fun h => ?_, fun h => ?_⟩
  · simp only [nxAncestors] at h
    have := (List.mem_filter.mp h).2
    simp at this
  · simp only [nxDescendants] at h
    have := (List.mem_filter.mp h).2
    simp at this

/-! ## C5: behavior of the query handlers on unknown identifiers -/

/-- Helper: the neighborhood fold leaves the accumulator unchanged when no
edge touches the selected id. -/
theorem showNeighborhood_foldl (edges : List (String × String)) (i : String)
    (acc : List String) (h : ∀ e ∈ edges, e.1 ≠ i ∧ e.2 ≠ i) :
    edges.foldl (fun acc e =>
      let a1 := if e.1 == i then acc ++ [e.2] else acc
      if e.2 == i then a1 ++ [e.1] else a1) acc = acc := by
  induction edges generalizing acc with
  | nil => rfl
  | cons e rest ih =>
    have h1 := (h e (List.mem_cons_self _ _)).1
    have h2 := (h e (List.mem_cons_self _ _)).2
    rw [List.foldl_cons]
    have hstep : (let a1 := if e.1 == i then acc ++ [e.2] else acc
        if e.2 == i then a1 ++ [e.1] else a1) = acc := by
      simp [h1, h2]
    rw [hstep]
    exact ih _ (fun e' he' => h e' (List.mem_cons_of_mem _ he'))

/-- C5 counterexample: `RM-999` is not a node of the built graph, yet none
of the three handlers fails: each returns the degraded singleton view
`{RM-999}` (a `shown` result, not an error), contradicting "fail with the
UnknownNode error, immediately and specifically, with no partial or
degraded result". -/
theorem C5_counterexample :
    "RM-999" ∉ nodeIds cyc2 ∧
    showAncestors (subgraph_data cyc2) (some "RM-999") = .shown ["RM-999"] ∧
    showDescendants (subgraph_data cyc2) (some "RM-999") = .shown ["RM-999"] ∧
    showNeighborhood cyc2.edges (some "RM-999") = .shown ["RM-999"] := by decide

/-- C5 (amended): for an identifier absent from the precomputed data the
query handlers do not raise any error: `showAncestors`/`showDescendants`
fall back to the empty set (`?.ancestors || []`) and show the degraded
singleton `{id}`, and `showNeighborhood` likewise shows `{id}` when no edge
touches `id`.  The only guarded condition is having no selection at all,
which produces a warning toast, not an UnknownNode error. -/
theorem C5_amended_degraded (data : List (String × (List String × List String)))
    (edges : List (String × String)) (i : String)
    (h1 : alookup data i = none) (h2 : ∀ e ∈ edges, e.1 ≠ i ∧ e.2 ≠ i) :
    showAncestors data (some i) = .shown [i] ∧
    showDescendants data (some i) = .shown [i] ∧
    showNeighborhood edges (some i) = .shown [i] := by
  refine ⟨?_, ?_, ?_⟩
  · simp [showAncestors, h1]
  · simp [showDescendants, h1]
  · simp only [showNeighborhood]
    rw [showNeighborhood_foldl edges i [i] h2]

/-- C5 witness: the amended statement applied to the concrete graph
`cyc2` and the unknown id `RM-999`. -/
theorem C5_amended_degraded_witness :
    alookup (subgraph_data cyc2) "RM-999" = none ∧
    (∀ e ∈ cyc2.edges, e.1 ≠ "RM-999" ∧ e.2 ≠ "RM-999") ∧
    (showAncestors (subgraph_data cyc2) (some "RM-999") = .shown ["RM-999"] ∧
     showDescendants (subgraph_data cyc2) (some "RM-999") = .shown ["RM-999"] ∧
     showNeighborhood cyc2.edges (some "RM-999") = .shown ["RM-999"]) :=
  ⟨by decide, by decide, C5_amended_degraded _ _ _ (by decide) (by decide)⟩

/-! ## C7: the displayed cycle-node set versus the full `inCycle` union -/

/-- C7 counterexample: with eleven elementary cycles the page script only
receives the first ten (`cycles[:10]`), so `showCycleNodes` displays the
union over those ten; `RM-011` belongs to `inCycle` (the full union,
line 341-343) but not to the displayed set.  This refutes "returns exactly
the union set inCycle". -/
theorem C7_counterexample :
    "RM-011" ∈ cycle_nodes elevenCycles ∧
    showCycleNodes elevenCycles =
      some (["RM-001", "RM-002", "RM-003", "RM-004", "RM-005", "RM-006", "RM-007",
        "RM-008", "RM-009", "RM-010"], elevenCycles.take 10) ∧
    "RM-011" ∉ ["RM-001", "RM-002", "RM-003", "RM-004", "RM-005", "RM-006", "RM-007",
        "RM-008", "RM-009", "RM-010"] := by decide

/-- C7 (amended): `showCycleNodes` returns the union of the nodes of the
first ten enumerated cycles together with that truncated cycle list; when at
most ten cycles are enumerated this coincides with the full `inCycle`
union and the full cycle list. -/
theorem C7_amended_bounded_union (cycles : List (List String))
    (h1 : cycles ≠ []) (h2 : cycles.length ≤ 10) :
    showCycleNodes cycles = some (cycle_nodes cycles, cycles) := by
  cases cycles with
  | nil => cases h1 rfl
  | cons c cs =>
    have ht : (c :: cs).take 10 = c :: cs := List.take_of_length_le h2
    simp [showCycleNodes, cycle_nodes, ht]

/-- C7 witness: the amended statement at a single two-node cycle. -/
theorem C7_amended_bounded_union_witness :
    ([["RM-001", "RM-002"]] : List (List String)) ≠ [] ∧
    ([["RM-001", "RM-002"]] : List (List String)).length ≤ 10 ∧
    showCycleNodes [["RM-001", "RM-002"]] =
      some (cycle_nodes [["RM-001", "RM-002"]], [["RM-001", "RM-002"]]) :=
  ⟨by decide, by decide, C7_amended_bounded_union _ (by decide) (by decide)⟩

/-! ## C8: attribute filtering -/

/-- Membership characterization of `applyFilters`. -/
theorem mem_applyFilters (nodeData : List (String × NodeAttrs)) (af pf vf i : String) :
    i ∈ applyFilters nodeData af pf vf ↔
      ∃ a, (i, a) ∈ nodeData ∧ (af = "" ∨ a.area = af) ∧
        (pf = "" ∨ a.prioridad = pf) ∧ (vf = "" ∨ a.version = vf) := by
  unfold applyFilters
  rw [List.mem_map]
  constructor
  · rintro ⟨p, hp, he⟩
    rw [List.mem_filter] at hp
    have hpe : (i, p.2) = p := by
      rw [← he]
    have hcond := hp.2
    simp only [Bool.and_eq_true, Bool.or_eq_true, beq_iff_eq] at hcond
    exact ⟨p.2, hpe ▸ hp.1, hcond.1.1, hcond.1.2, hcond.2⟩
  · rintro ⟨a, ha, h1, h2, h3⟩
    refine ⟨(i, a), ?_, rfl⟩
    rw [List.mem_filter]
    refine ⟨ha, ?_⟩
    simp only [Bool.and_eq_true, Bool.or_eq_true, beq_iff_eq]
    exact ⟨⟨h1, h2⟩, h3⟩

/-- C8: `applyFilters` returns exactly the ids whose attributes satisfy
every supplied constraint, with an empty dropdown value matching everything
on its dimension and the three dimensions conjoined; in particular
`area="Seguridad"` with empty priority and version keeps exactly the nodes
whose area is `Seguridad`, regardless of priority. -/
theorem C8_filters (nodeData : List (String × NodeAttrs)) (af pf vf i : String) :
    (i ∈ applyFilters nodeData af pf vf ↔
      ∃ a, (i, a) ∈ nodeData ∧ (af = "" ∨ a.area = af) ∧
        (pf = "" ∨ a.prioridad = pf) ∧ (vf = "" ∨ a.version = vf)) ∧
    (i ∈ applyFilters nodeData "Seguridad" "" "" ↔
      ∃ a, (i, a) ∈ nodeData ∧ a.area = "Seguridad") := by
  refine ⟨mem_applyFilters _ _ _ _ _, ?_⟩
  rw [mem_applyFilters]
  constructor
  · rintro ⟨a, ha, h1, _, _⟩
    rcases h1 with h1 | h1
    · exact absurd h1 (by decide)
    · exact ⟨a, ha, h1⟩
  · rintro ⟨a, ha, h1⟩
    exact ⟨a, ha, Or.inr h1, Or.inl rfl, Or.inl rfl⟩

/-! ## Range expansion (C2, C10) -/

theorem takeWhile_all {α : Type} {p : α → Bool} :
    ∀ l : List α, (∀ c ∈ l, p c = true) → l.takeWhile p = l := by
  intro l h
  induction l with
  | nil => rfl
  | cons a l ih =>
    rw [List.takeWhile_cons, if_pos (h a (List.mem_cons_self _ _))]
    rw [ih (fun c hc => h c (List.mem_cons_of_mem _ hc))]

theorem takeWhile_all_append {α : Type} {p : α → Bool} :
    ∀ (l1 l2 : List α), (∀ c ∈ l1, p c = true) →
      (l1 ++ l2).takeWhile p = l1 ++ l2.takeWhile p := by
  intro l1 l2 h
  induction l1 with
  | nil => rfl
  | cons a l ih =>
    rw [List.cons_append, List.takeWhile_cons, if_pos (h a (List.mem_cons_self _ _))]
    rw [ih (fun c hc => h c (List.mem_cons_of_mem _ hc)), List.cons_append]

theorem dropWhile_all_append {α : Type} {p : α → Bool} :
    ∀ (l1 l2 : List α), (∀ c ∈ l1, p c = true) →
      (l1 ++ l2).dropWhile p = l2.dropWhile p := by
  intro l1 l2 h
  induction l1 with
  | nil => rfl
  | cons a l ih =>
    rw [List.cons_append, List.dropWhile_cons_of_pos (h a (List.mem_cons_self _ _))]
    exact ih (fun c hc => h c (List.mem_cons_of_mem _ hc))

/-- The range regex on a well-formed range string: both digit groups are
captured and converted. -/
theorem rangeMatch_range (ds de : List Char)
    (h1 : ds ≠ []) (h2 : ∀ c ∈ ds, c.isDigit = true)
    (h3 : de ≠ []) (h4 : ∀ c ∈ de, c.isDigit = true) :
    rangeMatch ('R' :: 'M' :: '-' :: (ds ++ '.' :: '.' :: 'R' :: 'M' :: '-' :: de)) =
      some (digitsVal ds, digitsVal de) := by
  have ht1 : (ds ++ '.' :: '.' :: 'R' :: 'M' :: '-' :: de).takeWhile Char.isDigit = ds := by
    rw [takeWhile_all_append _ _ h2, List.takeWhile_cons,
      if_neg (by decide : ¬(('.' : Char).isDigit = true))]
    simp
  have ht2 : (ds ++ '.' :: '.' :: 'R' :: 'M' :: '-' :: de).dropWhile Char.isDigit =
      '.' :: '.' :: 'R' :: 'M' :: '-' :: de := by
    rw [dropWhile_all_append _ _ h2,
      List.dropWhile_cons_of_neg (by decide : ¬(('.' : Char).isDigit = true))]
  have ht3 : de.takeWhile Char.isDigit = de := takeWhile_all _ h4
  have hne1 : ds.isEmpty = false := by
    cases ds with
    | nil => exact absurd rfl h1
    | cons a l => rfl
  have hne2 : de.isEmpty = false := by
    cases de with
    | nil => exact absurd rfl h3
    | cons a l => rfl
  simp only [rangeMatch, ht1, ht2, ht3, hne1, hne2, Bool.false_eq_true, if_false]

/-- `parse_dependencies` on a well-formed `RM-…..RM-…` range string expands
the numeric range, formatting each element with the fixed width-3 pad. -/
theorem parse_range_eq (ds de : List Char)
    (h1 : ds ≠ []) (h2 : ∀ c ∈ ds, c.isDigit = true)
    (h3 : de ≠ []) (h4 : ∀ c ∈ de, c.isDigit = true) :
    parse_dependencies (some (String.mk
        ('R' :: 'M' :: '-' :: (ds ++ '.' :: '.' :: 'R' :: 'M' :: '-' :: de)))) =
      (List.range' (digitsVal ds) (digitsVal de + 1 - digitsVal ds)).map fmtRM := by
  have hcond : ¬(('R' :: 'M' :: '-' :: (ds ++ '.' :: '.' :: 'R' :: 'M' :: '-' :: de))
      = ['—'] ∨ ('R' :: 'M' :: '-' :: (ds ++ '.' :: '.' :: 'R' :: 'M' :: '-' :: de)).all
        Char.isWhitespace = true) := by
    rintro (h | h)
    · injection h with hh ht
      exact absurd hh (by decide)
    · rw [List.all_cons] at h
      simp only [Bool.and_eq_true] at h
      exact absurd h.1 (by decide)
  simp only [parse_dependencies]
  rw [if_neg hcond, rangeMatch_range ds de h1 h2 h3 h4]

/-- C2 counterexample: on the range `RM-0001..RM-0002` — whose start token
has width 4 — the code emits `RM-001, RM-002` (hardcoded width-3 pad), not
the width-4 identifiers the claim requires ("zero-padded to the width of
the start token of the input"). -/
theorem C2_counterexample :
    parse_dependencies (some "RM-0001..RM-0002") = ["RM-001", "RM-002"] ∧
    parse_dependencies (some "RM-0001..RM-0002") ≠ ["RM-0001", "RM-0002"] := by
  decide

/-- C2 (amended): for every valid range input `RM-<s>..RM-<e>` with `s ≤ e`
(digit groups of any width), `parse_dependencies` returns exactly the
identifiers for every integer in `[s, e]` inclusive, in ascending order,
each formatted as `RM-` followed by the number zero-padded to the fixed
width 3 (wider numbers keep their natural width) — the pad width is
hardcoded, not taken from the start token, and only the `RM` prefix is
recognized. -/
theorem C2_amended_range (ds de : List Char)
    (h1 : ds ≠ []) (h2 : ∀ c ∈ ds, c.isDigit = true)
    (h3 : de ≠ []) (h4 : ∀ c ∈ de, c.isDigit = true)
    (_h5 : digitsVal ds ≤ digitsVal de) :
    parse_dependencies (some (String.mk
        ('R' :: 'M' :: '-' :: (ds ++ '.' :: '.' :: 'R' :: 'M' :: '-' :: de)))) =
      (List.range' (digitsVal ds) (digitsVal de + 1 - digitsVal ds)).map fmtRM :=
  parse_range_eq ds de h1 h2 h3 h4

/-- C2 witness: the amended statement at `RM-001..RM-005`. -/
theorem C2_amended_range_witness :
    ((['0', '0', '1'] : List Char) ≠ [] ∧
      (∀ c ∈ (['0', '0', '1'] : List Char), c.isDigit = true) ∧
      (['0', '0', '5'] : List Char) ≠ [] ∧
      (∀ c ∈ (['0', '0', '5'] : List Char), c.isDigit = true) ∧
      digitsVal ['0', '0', '1'] ≤ digitsVal ['0', '0', '5']) ∧
    parse_dependencies (some (String.mk
        ('R' :: 'M' :: '-' :: (['0', '0', '1'] ++ '.' :: '.' :: 'R' :: 'M' :: '-' ::
          ['0', '0', '5'])))) =
      (List.range' (digitsVal ['0', '0', '1'])
        (digitsVal ['0', '0', '5'] + 1 - digitsVal ['0', '0', '1'])).map fmtRM :=
  ⟨⟨by decide, by decide, by decide, by decide, by decide⟩,
    C2_amended_range _ _ (by decide) (by decide) (by decide) (by decide) (by decide)⟩

/-- C10: on a reversed range `RM-<s>..RM-<e>` with `s > e` the expansion
`range(start, end + 1)` is empty, so `parse_dependencies` returns `[]`
without error. -/
theorem C10_reversed_range_empty (ds de : List Char)
    (h1 : ds ≠ []) (h2 : ∀ c ∈ ds, c.isDigit = true)
    (h3 : de ≠ []) (h4 : ∀ c ∈ de, c.isDigit = true)
    (h5 : digitsVal de < digitsVal ds) :
    parse_dependencies (some (String.mk
        ('R' :: 'M' :: '-' :: (ds ++ '.' :: '.' :: 'R' :: 'M' :: '-' :: de)))) = [] := by
  rw [parse_range_eq ds de h1 h2 h3 h4]
  have hz : digitsVal de + 1 - digitsVal ds = 0 := by omega
  rw [hz]
  rfl

/-- C10 witness: `RM-005..RM-003` parses to the empty list. -/
theorem C10_reversed_range_empty_witness :
    ((['0', '0', '5'] : List Char) ≠ [] ∧
      (∀ c ∈ (['0', '0', '5'] : List Char), c.isDigit = true) ∧
      (['0', '0', '3'] : List Char) ≠ [] ∧
      (∀ c ∈ (['0', '0', '3'] : List Char), c.isDigit = true) ∧
      digitsVal ['0', '0', '3'] < digitsVal ['0', '0', '5']) ∧
    parse_dependencies (some (String.mk
        ('R' :: 'M' :: '-' :: (['0', '0', '5'] ++ '.' :: '.' :: 'R' :: 'M' :: '-' ::
          ['0', '0', '3'])))) = [] :=
  ⟨⟨by decide, by decide, by decide, by decide, by decide⟩,
    C10_reversed_range_empty _ _ (by decide) (by decide) (by decide) (by decide) (by decide)⟩

/-! ## C9: duplicate identifiers, last write wins -/

theorem akeys_nodup_aset {α : Type} (ls : List (String × α)) (k : String) (v : α)
    (h : (akeys ls).Nodup) : (akeys (aset ls k v)).Nodup := by
  rw [akeys_aset]
  by_cases hm : k ∈ akeys ls
  · rw [if_pos hm]
    exact h
  · rw [if_neg hm]
    refine List.Nodup.append h (List.nodup_singleton _) ?_
    intro a ha hb
    rw [List.mem_singleton] at hb
    subst hb
    exact hm ha

theorem find?_append {α : Type} (p : α → Bool) (l1 l2 : List α) :
    (l1 ++ l2).find? p =
      match l1.find? p with
      | some x => some x
      | none => l2.find? p := by
  induction l1 with
  | nil => simp
  | cons a l ih =>
    by_cases h : p a = true
    · rw [List.cons_append, List.find?_cons_of_pos _ h, List.find?_cons_of_pos _ h]
    · rw [List.cons_append, List.find?_cons_of_neg _ h, List.find?_cons_of_neg _ h, ih]

/-- The node map built by the first loop of `build_graph`: the attributes
found for an id are those of the last record carrying it. -/
theorem foldl_aset_lookup (records : List Record) :
    ∀ (acc : List (String × NodeAttrs)) (i : String),
      alookup (records.foldl (fun a r => aset a r.id (mkAttrs r)) acc) i =
        match records.reverse.find? (fun r => r.id == i) with
        | some r => some (mkAttrs r)
        | none => alookup acc i := by
  induction records with
  | nil => intro acc i; rfl
  | cons r rest ih =>
    intro acc i
    rw [List.foldl_cons, ih, List.reverse_cons, find?_append]
    cases hf : rest.reverse.find? (fun r' => r'.id == i) with
    | some r' => rfl
    | none =>
      simp only []
      rw [alookup_aset]
      by_cases hri : i = r.id
      · rw [if_pos hri]
        have hfr : List.find? (fun r' => r'.id == i) [r] = some r :=
          List.find?_cons_of_pos _ (by simp [hri])
        rw [hfr]
      · rw [if_neg hri]
        have hfr : List.find? (fun r' => r'.id == i) [r] = none := by
          rw [List.find?_cons_of_neg _ (by simp; exact fun he => hri he.symm)]
          rfl
        rw [hfr]

/-- C9: duplicate identifiers are not rejected — `build_graph` is total —
and for every id the graph holds exactly one node (the key list of the node
map has no duplicates) whose attributes are those of the LAST record bearing
that id (stated as: the lookup equals `mkAttrs` of the last matching record,
for every input including inputs with two or more records per id). -/
theorem C9_last_write_wins (records : List Record) (i : String) :
    (akeys (build_graph records).nodes).Nodup ∧
    alookup (build_graph records).nodes i =
      (records.reverse.find? (fun r => r.id == i)).map mkAttrs := by
  constructor
  · have hg : ∀ (rs : List Record) (acc : List (String × NodeAttrs)),
        (akeys acc).Nodup →
        (akeys (rs.foldl (fun a r => aset a r.id (mkAttrs r)) acc)).Nodup := by
      intro rs
      induction rs with
      | nil => exact fun acc h => h
      | cons r rest ih =>
        intro acc h
        rw [List.foldl_cons]
        exact ih _ (akeys_nodup_aset _ _ _ h)
    exact hg records [] (by simp [akeys])
  · have hb : (build_graph records).nodes =
        records.foldl (fun a r => aset a r.id (mkAttrs r)) [] := rfl
    rw [hb, foldl_aset_lookup records [] i]
    cases records.reverse.find? (fun r => r.id == i) <;> rfl

/-! ## C1: edge existence in the built graph -/

theorem mem_akeys_aset {α : Type} (ls : List (String × α)) (k : String) (v : α)
    (j : String) : j ∈ akeys (aset ls k v) ↔ j ∈ akeys ls ∨ j = k := by
  rw [akeys_aset]
  by_cases hm : k ∈ akeys ls
  · rw [if_pos hm]
    constructor
    · exact Or.inl
    · rintro (h | rfl)
      · exact h
      · exact hm
  · rw [if_neg hm]
    simp [List.mem_append]

theorem mem_keys_foldl_aset (rs : List Record) :
    ∀ (acc : List (String × NodeAttrs)) (j : String),
      j ∈ akeys (rs.foldl (fun a r => aset a r.id (mkAttrs r)) acc) ↔
        j ∈ akeys acc ∨ j ∈ rs.map Record.id := by
  induction rs with
  | nil => simp
  | cons r rest ih =>
    intro acc j
    rw [List.foldl_cons, ih, mem_akeys_aset]
    simp only [List.map_cons, List.mem_cons]
    tauto

theorem mem_addEdge (es : List (String × String)) (e e' : String × String) :
    e ∈ addEdge es e' ↔ e ∈ es ∨ e = e' := by
  unfold addEdge
  by_cases h : e' ∈ es
  · rw [if_pos h]
    constructor
    · exact Or.inl
    · rintro (h1 | rfl)
      · exact h1
      · exact h
  · rw [if_neg h]
    simp [List.mem_append]

theorem mem_depsFold (ids : List String) (rid : String) (ds : List String) :
    ∀ (acc : List (String × String)) (e : String × String),
      e ∈ ds.foldl (fun a d => if d ∈ ids then addEdge a (d, rid) else a) acc ↔
        e ∈ acc ∨ ∃ d ∈ ds, d ∈ ids ∧ e = (d, rid) := by
  induction ds with
  | nil => simp
  | cons d rest ih =>
    intro acc e
    rw [List.foldl_cons]
    by_cases hd : d ∈ ids
    · rw [if_pos hd, ih]
      simp only [mem_addEdge, List.mem_cons]
      constructor
      · rintro ((h | h) | ⟨d', hd', hi', he'⟩)
        · exact Or.inl h
        · exact Or.inr ⟨d, Or.inl rfl, hd, h⟩
        · exact Or.inr ⟨d', Or.inr hd', hi', he'⟩
      · rintro (h | ⟨d', hd', hi', he'⟩)
        · exact Or.inl (Or.inl h)
        · rcases hd' with rfl | hd'
          · exact Or.inl (Or.inr he')
          · exact Or.inr ⟨d', hd', hi', he'⟩
    · rw [if_neg hd, ih]
      simp only [List.mem_cons]
      constructor
      · rintro (h | ⟨d', hd', hi', he'⟩)
        · exact Or.inl h
        · exact Or.inr ⟨d', Or.inr hd', hi', he'⟩
      · rintro (h | ⟨d', hd', hi', he'⟩)
        · exact Or.inl h
        · rcases hd' with rfl | hd'
          · exact absurd hi' hd
          · exact Or.inr ⟨d', hd', hi', he'⟩

theorem mem_edgesFold (ids : List String) (rs : List Record) :
    ∀ (acc : List (String × String)) (e : String × String),
      e ∈ rs.foldl (fun acc2 r => (parse_dependencies r.dependencias).foldl
          (fun a d => if d ∈ ids then addEdge a (d, r.id) else a) acc2) acc ↔
        e ∈ acc ∨ ∃ r ∈ rs, ∃ d ∈ parse_dependencies r.dependencias,
          d ∈ ids ∧ e = (d, r.id) := by
  induction rs with
  | nil => simp
  | cons r rest ih =>
    intro acc e
    rw [List.foldl_cons, ih, mem_depsFold]
    simp only [List.mem_cons]
    constructor
    · rintro ((h | ⟨d', hd', hi', he'⟩) | ⟨r', hr', hrest⟩)
      · exact Or.inl h
      · exact Or.inr ⟨r, Or.inl rfl, d', hd', hi', he'⟩
      · exact Or.inr ⟨r', Or.inr hr', hrest⟩
    · rintro (h | ⟨r', hr', hrest⟩)
      · exact Or.inl (Or.inl h)
      · rcases hr' with rfl | hr'
        · exact Or.inl (Or.inr hrest)
        · exact Or.inr ⟨r', hr', hrest⟩

/-- C1: the built graph has an edge `(D, R)` iff some input record has
identifier `R` and `D` in its parsed dependency list, and `D` is itself the
identifier of some record (a known node); dangling references produce no
edge (and `build_graph` is total, so no error either). -/
theorem C1_build_graph_edges (records : List Record) (D R : String) :
    (D, R) ∈ (build_graph records).edges ↔
      (∃ r ∈ records, r.id = R ∧ D ∈ parse_dependencies r.dependencias) ∧
      D ∈ records.map Record.id := by
  have hids : ∀ j : String,
      j ∈ akeys (records.foldl (fun a r => aset a r.id (mkAttrs r)) []) ↔
        j ∈ records.map Record.id := by
    intro j
    rw [mem_keys_foldl_aset]
    simp [akeys]
  have hb : (build_graph records).edges =
      records.foldl (fun acc2 r => (parse_dependencies r.dependencias).foldl
        (fun a d =>
          if d ∈ akeys (records.foldl (fun a2 r2 => aset a2 r2.id (mkAttrs r2)) [])
          then addEdge a (d, r.id) else a) acc2) [] := rfl
  rw [hb, mem_edgesFold]
  simp only [List.not_mem_nil, false_or]
  constructor
  · rintro ⟨r, hr, d, hd, hi, he⟩
    obtain ⟨hD, hR⟩ := Prod.mk.inj he
    subst hD
    exact ⟨⟨r, hr, hR.symm, hd⟩, (hids D).mp hi⟩
  · rintro ⟨⟨r, hr, hR, hd⟩, hknown⟩
    exact ⟨r, hr, D, hd, (hids D).mpr hknown, by rw [hR]⟩

/-! ## C3 groundwork: order positions and the topological pass -/

/-- `a` occurs strictly before the first occurrence of `b` in `l`. -/
def before (l : List String) (a b : String) : Prop :=
  a ∈ l.takeWhile (fun x => x != b)

theorem mem_takeWhile_append {p : String → Bool} (l l2 : List String) (a : String)
    (h : a ∈ l.takeWhile p) : a ∈ (l ++ l2).takeWhile p := by
  induction l with
  | nil => exact absurd h (List.not_mem_nil _)
  | cons c cs ih =>
    by_cases hp : p c = true
    · rw [List.takeWhile_cons, if_pos hp] at h
      rw [List.cons_append, List.takeWhile_cons, if_pos hp]
      rcases List.mem_cons.mp h with rfl | h'
      · exact List.mem_cons_self _ _
      · exact List.mem_cons_of_mem _ (ih h')
    · rw [List.takeWhile_cons, if_neg hp] at h
      exact absurd h (List.not_mem_nil _)

theorem before_append_right (l l2 : List String) (a b : String)
    (h : before l a b) : before (l ++ l2) a b :=
  mem_takeWhile_append l l2 a h

theorem before_append_of_mem (l1 l2 : List String) (a b : String)
    (ha : a ∈ l1) (hb : b ∉ l1) : before (l1 ++ l2) a b := by
  unfold before
  rw [takeWhile_all_append _ _
    (fun x hx => bne_iff_ne.mpr (fun (he : x = b) => hb (he ▸ hx)))]
  exact List.mem_append.mpr (Or.inl ha)

theorem mem_of_before_split (prev rest : List String) (a b : String)
    (hb1 : b ∉ prev) (h : before (prev ++ b :: rest) a b) : a ∈ prev := by
  unfold before at h
  rw [takeWhile_all_append _ _
    (fun x hx => bne_iff_ne.mpr (fun (he : x = b) => hb1 (he ▸ hx)))] at h
  rw [List.takeWhile_cons, if_neg (by simp), List.append_nil] at h
  exact h

theorem before_mem_left {l : List String} {a b : String} (h : before l a b) : a ∈ l := by
  unfold before at h
  exact List.takeWhile_sublist _ |>.mem h

/-! Maximum folds (Python `max` over a nonempty sequence of naturals). -/

theorem init_le_foldl_max : ∀ (l : List Nat) (init : Nat), init ≤ l.foldl Nat.max init := by
  intro l
  induction l with
  | nil => exact fun init => Nat.le_refl _
  | cons a t ih =>
    intro init
    rw [List.foldl_cons]
    exact Nat.le_trans (Nat.le_max_left init a) (ih _)

theorem le_foldl_max : ∀ (l : List Nat) (init x : Nat), x ∈ l → x ≤ l.foldl Nat.max init := by
  intro l
  induction l with
  | nil => intro init x h; exact absurd h (List.not_mem_nil _)
  | cons a t ih =>
    intro init x h
    rw [List.foldl_cons]
    rcases List.mem_cons.mp h with rfl | h'
    · exact Nat.le_trans (Nat.le_max_right init x) (init_le_foldl_max _ _)
    · exact ih _ _ h'

theorem mem_predsOf (G : Graph) (n p : String) : p ∈ predsOf G n ↔ (p, n) ∈ G.edges := by
  unfold predsOf
  rw [List.mem_map]
  constructor
  · rintro ⟨e, he, rfl⟩
    rw [List.mem_filter] at he
    have h2 : e.2 = n := by simpa using he.2
    have he1 : e = (e.1, n) := by
      rw [← h2]
    exact he1 ▸ he.1
  · intro h
    refine ⟨(p, n), ?_, rfl⟩
    rw [List.mem_filter]
    exact ⟨h, by simp⟩

/-- The topological pass of lines 128-133, specified: processing a
duplicate-free order whose every edge respects it (source strictly before
target), already-set keys are untouched, and every processed node ends with
the level the claim describes — 0 for root nodes, max over predecessors
plus one otherwise, the maxima taken over the FINAL table. -/
theorem levelsTopo_spec (G : Graph) :
    ∀ (rest prev : List String) (levels : List (String × Nat)),
      akeys levels = prev →
      (prev ++ rest).Nodup →
      (∀ e ∈ G.edges, e.2 ∈ rest → before (prev ++ rest) e.1 e.2) →
      (∀ m ∈ prev, alookup (levelsTopo G rest levels) m = alookup levels m) ∧
      (∀ n ∈ rest,
        alookup (levelsTopo G rest levels) n =
          some (if (predsOf G n).isEmpty then 0
            else ((predsOf G n).map
              (fun p => lookupD (levelsTopo G rest levels) p 0)).foldl Nat.max 0 + 1)) := by
  intro rest
  induction rest with
  | nil =>
    intro prev levels hk hnd htopo
    exact ⟨fun m _ => rfl, fun n hn => absurd hn (List.not_mem_nil _)⟩
  | cons n rest2 ih =>
    intro prev levels hk hnd htopo
    rw [List.nodup_append] at hnd
    obtain ⟨hndp, hndc, hdisj⟩ := hnd
    have hnprev : n ∉ prev := fun hm => hdisj hm (List.mem_cons_self _ _)
    have hnrest : n ∉ rest2 := (List.nodup_cons.mp hndc).1
    have hpreds : ∀ p ∈ predsOf G n, p ∈ prev := by
      intro p hp
      have hedge : (p, n) ∈ G.edges := (mem_predsOf G n p).mp hp
      have hbef := htopo (p, n) hedge (List.mem_cons_self _ _)
      exact mem_of_before_split prev rest2 p n hnprev hbef
    have hstep : levelsTopo G (n :: rest2) levels =
        levelsTopo G rest2 (aset levels n (if (predsOf G n).isEmpty then 0
          else ((predsOf G n).map (fun p => lookupD levels p 0)).foldl Nat.max 0 + 1)) :=
      rfl
    set v := (if (predsOf G n).isEmpty then 0
      else ((predsOf G n).map (fun p => lookupD levels p 0)).foldl Nat.max 0 + 1) with hv
    have hkeys2 : akeys (aset levels n v) = prev ++ [n] := by
      rw [akeys_aset, hk, if_neg hnprev]
    have hnd2 : ((prev ++ [n]) ++ rest2).Nodup := by
      rw [List.nodup_append]
      refine ⟨?_, (List.nodup_cons.mp hndc).2, ?_⟩
      · rw [List.nodup_append]
        refine ⟨hndp, List.nodup_singleton _, ?_⟩
        intro a ha hb
        rw [List.mem_singleton] at hb
        subst hb
        exact hnprev ha
      · intro a ha hb
        rcases List.mem_append.mp ha with ha' | ha'
        · exact hdisj ha' (List.mem_cons_of_mem _ hb)
        · rw [List.mem_singleton] at ha'
          subst ha'
          exact hnrest hb
    have htopo2 : ∀ e ∈ G.edges, e.2 ∈ rest2 → before ((prev ++ [n]) ++ rest2) e.1 e.2 := by
      intro e he h2
      have := htopo e he (List.mem_cons_of_mem _ h2)
      rw [List.append_assoc, List.singleton_append]
      exact this
    obtain ⟨IH1, IH2⟩ := ih (prev ++ [n]) (aset levels n v) hkeys2 hnd2 htopo2
    have hself : alookup (levelsTopo G rest2 (aset levels n v)) n = some v := by
      rw [IH1 n (List.mem_append.mpr (Or.inr (List.mem_singleton_self _)))]
      rw [alookup_aset, if_pos rfl]
    have hstable : ∀ m ∈ prev,
        alookup (levelsTopo G rest2 (aset levels n v)) m = alookup levels m := by
      intro m hm
      rw [IH1 m (List.mem_append.mpr (Or.inl hm)), alookup_aset,
        if_neg (fun he : m = n => hnprev (he ▸ hm))]
    constructor
    · intro m hm
      rw [hstep]
      exact hstable m hm
    · intro x hx
      rcases List.mem_cons.mp hx with rfl | hx2
      · rw [hstep, hself]
        congr 1
        conv_lhs => rw [hv]
        by_cases hps : (predsOf G x).isEmpty
        · rw [if_pos hps, if_pos hps]
        · rw [if_neg hps, if_neg hps]
          congr 1
          congr 1
          apply List.map_congr_left
          intro p hp
          unfold lookupD
          rw [hstable p (hpreds p hp)]
      · rw [hstep]
        exact IH2 x hx2

/-! ## Kahn bookkeeping: in-edge counts and algorithm fuel -/

theorem mem_successorsOf (G : Graph) (n b : String) :
    b ∈ successorsOf G n ↔ (n, b) ∈ G.edges := by
  unfold successorsOf
  rw [List.mem_map]
  constructor
  · rintro ⟨e, he, rfl⟩
    rw [List.mem_filter] at he
    have h1 : e.1 = n := by simpa using he.2
    have he1 : e = (n, e.2) := by
      rw [← h1]
    exact he1 ▸ he.1
  · intro h
    refine ⟨(n, b), ?_, rfl⟩
    rw [List.mem_filter]
    exact ⟨h, by simp⟩

theorem successorsOf_nodup (G : Graph) (hE : G.edges.Nodup) (g : String) :
    (successorsOf G g).Nodup := by
  unfold successorsOf
  refine List.Nodup.map_on ?_ (hE.filter _)
  intro x hx y hy hxy
  rw [List.mem_filter] at hx hy
  have hx1 : x.1 = g := by simpa using hx.2
  have hy1 : y.1 = g := by simpa using hy.2
  exact Prod.ext (hx1.trans hy1.symm) hxy

/-- Number of in-edges of `c` whose source is not yet expanded (i.e. not
in `P`); the quantity tracked by the indegree map of
`topological_generations`. -/
def inCnt (es : List (String × String)) (P : List String) (c : String) : Nat :=
  (es.filter (fun e => decide (e.2 = c ∧ e.1 ∉ P))).length

theorem inCnt_nil_es (P : List String) (c : String) : inCnt [] P c = 0 := rfl

theorem inCnt_cons (e : String × String) (es : List (String × String))
    (P : List String) (c : String) :
    inCnt (e :: es) P c =
      (if e.2 = c ∧ e.1 ∉ P then 1 else 0) + inCnt es P c := by
  by_cases h : e.2 = c ∧ e.1 ∉ P
  · simp [inCnt, List.filter_cons, h, Nat.add_comm]
  · simp [inCnt, List.filter_cons, h]

theorem inCnt_snoc (es : List (String × String)) (hE : es.Nodup) (g c : String)
    (P : List String) (hgP : g ∉ P) :
    inCnt es P c = inCnt es (P ++ [g]) c + (if (g, c) ∈ es then 1 else 0) := by
  induction es with
  | nil => rfl
  | cons e es ih =>
    have hEt : es.Nodup := (List.nodup_cons.mp hE).2
    have hEh : e ∉ es := (List.nodup_cons.mp hE).1
    rw [inCnt_cons, inCnt_cons, ih hEt]
    by_cases heq : e = (g, c)
    · subst heq
      have hng : ¬((g, c).2 = c ∧ (g, c).1 ∉ P ++ [g]) := by
        intro hc
        exact hc.2 (List.mem_append.mpr (Or.inr (List.mem_singleton_self _)))
      rw [if_pos ⟨rfl, hgP⟩, if_neg hng, if_neg hEh, if_pos (List.mem_cons_self _ _)]
      omega
    · have hcontrib : (if e.2 = c ∧ e.1 ∉ P then 1 else 0) =
          (if e.2 = c ∧ e.1 ∉ P ++ [g] then (1 : Nat) else 0) := by
        by_cases h2 : e.2 = c
        · have h1 : e.1 ≠ g := fun h1 => heq (Prod.ext h1 h2)
          by_cases hP : e.1 ∈ P
          · rw [if_neg (fun hc => hc.2 hP),
              if_neg (fun hc => hc.2 (List.mem_append.mpr (Or.inl hP)))]
          · have hnm : e.1 ∉ P ++ [g] := by
              intro hc
              rcases List.mem_append.mp hc with hc2 | hc2
              · exact hP hc2
              · rw [List.mem_singleton] at hc2
                exact h1 hc2
            rw [if_pos ⟨h2, hP⟩, if_pos ⟨h2, hnm⟩]
        · rw [if_neg (fun hc => h2 hc.1), if_neg (fun hc => h2 hc.1)]
      by_cases hm : (g, c) ∈ es
      · rw [if_pos (List.mem_cons_of_mem _ hm), if_pos hm, hcontrib]
        omega
      · have hnm2 : (g, c) ∉ e :: es := by
          intro hc
          rcases List.mem_cons.mp hc with hc2 | hc2
          · exact heq hc2.symm
          · exact hm hc2
        rw [if_neg hnm2, if_neg hm, hcontrib]
        omega

theorem inCnt_eq_zero (es : List (String × String)) (P : List String) (c : String)
    (h : inCnt es P c = 0) : ∀ a, (a, c) ∈ es → a ∈ P := by
  intro a ha
  by_contra haP
  have hmem : (a, c) ∈ es.filter (fun e => decide (e.2 = c ∧ e.1 ∉ P)) :=
    List.mem_filter.mpr ⟨ha, by simp [haP]⟩
  have := List.length_pos.mpr (List.ne_nil_of_mem hmem)
  unfold inCnt at h
  omega

theorem inDegree_eq_inCnt (G : Graph) (c : String) :
    inDegree G c = inCnt G.edges [] c := by
  unfold inDegree inCnt
  congr 1
  apply List.filter_congr
  intro e _
  by_cases h : e.2 = c <;> simp [h]

theorem alookup_mem_pair {α : Type} {ls : List (String × α)} {k : String} {v : α}
    (h : alookup ls k = some v) : (k, v) ∈ ls := by
  unfold alookup at h
  cases hf : ls.find? (fun p => p.1 == k) with
  | none => rw [hf] at h; exact Option.noConfusion h
  | some p =>
    rw [hf] at h
    have hp1 : p.1 = k := by simpa using List.find?_some hf
    have hp2 : p.2 = v := by simpa using h
    have hm := List.mem_of_find?_eq_some hf
    have : p = (k, v) := Prod.ext hp1 hp2
    exact this ▸ hm

theorem akeys_filterKey {α : Type} (ls : List (String × α)) (c : String) :
    akeys (ls.filter (fun p => p.1 != c)) = (akeys ls).filter (fun x => x != c) := by
  induction ls with
  | nil => rfl
  | cons p rest ih =>
    by_cases h : p.1 = c
    · rw [List.filter_cons, if_neg (by simp [h])]
      have : akeys (p :: rest) = p.1 :: akeys rest := rfl
      rw [this, List.filter_cons, if_neg (by simp [h]), ih]
    · rw [List.filter_cons, if_pos (by simp [h])]
      have h1 : akeys (p :: rest.filter (fun p => p.1 != c)) =
          p.1 :: akeys (rest.filter (fun p => p.1 != c)) := rfl
      have h2 : akeys (p :: rest) = p.1 :: akeys rest := rfl
      rw [h1, h2, List.filter_cons, if_pos (by simp [h]), ih]

theorem alookup_filterKey_ne {α : Type} (ls : List (String × α)) (c j : String)
    (hj : j ≠ c) :
    alookup (ls.filter (fun p => p.1 != c)) j = alookup ls j := by
  induction ls with
  | nil => rfl
  | cons p rest ih =>
    by_cases h : p.1 = c
    · rw [List.filter_cons, if_neg (by simp [h]), ih, alookup_cons,
        if_neg (fun (he : p.1 = j) => hj (he ▸ h))]
    · rw [List.filter_cons, if_pos (by simp [h]), alookup_cons, alookup_cons]
      by_cases hpj : p.1 = j
      · rw [if_pos hpj, if_pos hpj]
      · rw [if_neg hpj, if_neg hpj, ih]

theorem not_mem_akeys_filterKey {α : Type} (ls : List (String × α)) (c : String) :
    c ∉ akeys (ls.filter (fun p => p.1 != c)) := by
  rw [akeys_filterKey]
  intro h
  have := (List.mem_filter.mp h).2
  simp at this

theorem filter_ne_all {l : List String} {c : String} (h : ∀ x ∈ l, x ≠ c) :
    l.filter (fun x => x != c) = l := by
  induction l with
  | nil => rfl
  | cons a t ih =>
    rw [List.filter_cons, if_pos (by simp; exact h a (List.mem_cons_self _ _))]
    rw [ih (fun x hx => h x (List.mem_cons_of_mem _ hx))]

theorem nodup_perm_cons_filter (l : List String) (c : String)
    (hnd : l.Nodup) (hc : c ∈ l) :
    l.Perm (c :: l.filter (fun x => x != c)) := by
  induction l with
  | nil => exact absurd hc (List.not_mem_nil _)
  | cons a t ih =>
    rcases List.mem_cons.mp hc with rfl | hc2
    · rw [List.filter_cons, if_neg (by simp)]
      have hnotin : c ∉ t := (List.nodup_cons.mp hnd).1
      rw [filter_ne_all (fun x hx (he : x = c) => hnotin (he ▸ hx))]
    · have ha : a ≠ c := by
        rintro rfl
        exact (List.nodup_cons.mp hnd).1 hc2
      rw [List.filter_cons, if_pos (by simp [ha])]
      refine List.Perm.trans
        (List.Perm.cons a (ih (List.nodup_cons.mp hnd).2 hc2)) ?_
      exact List.Perm.swap c a _

theorem filter_length_lt {α : Type} {q : α → Bool} :
    ∀ (l : List α) (x : α), x ∈ l → q x = false → (l.filter q).length < l.length := by
  intro l
  induction l with
  | nil => intro x h; exact absurd h (List.not_mem_nil _)
  | cons a t ih =>
    intro x hx hq
    rcases List.mem_cons.mp hx with rfl | hx'
    · rw [List.filter_cons, if_neg (by simp [hq])]
      simp only [List.length_cons]
      exact Nat.lt_succ_of_le (List.length_filter_le _ _)
    · rw [List.filter_cons]
      by_cases hqa : q a = true
      · rw [if_pos hqa]
        simp only [List.length_cons]
        exact Nat.succ_lt_succ (ih x hx' hq)
      · rw [if_neg hqa]
        simp only [List.length_cons]
        exact Nat.lt_succ_of_lt (ih x hx' hq)

theorem processChild_length (im : List (String × Nat)) (zs : List String) (c : String) :
    (processChild (im, zs) c).1.length + (processChild (im, zs) c).2.length ≤
      im.length + zs.length := by
  have him2 : (im.map (fun p => if p.1 == c then (c, p.2 - 1) else p)).length
      = im.length := List.length_map _ _
  by_cases h : (lookupD (im.map (fun p => if p.1 == c then (c, p.2 - 1) else p)) c 1
      == 0) = true
  · have hres : processChild (im, zs) c =
        ((im.map (fun p => if p.1 == c then (c, p.2 - 1) else p)).filter
          (fun p => p.1 != c), zs ++ [c]) := by
      unfold processChild
      rw [if_pos h]
    rw [hres]
    have h0 : lookupD (im.map (fun p => if p.1 == c then (c, p.2 - 1) else p)) c 1
        = 0 := by
      simpa using h
    have hv : alookup (im.map (fun p => if p.1 == c then (c, p.2 - 1) else p)) c
        = some 0 := by
      unfold lookupD at h0
      cases hl : alookup (im.map (fun p => if p.1 == c then (c, p.2 - 1) else p)) c with
      | none =>
        rw [hl] at h0
        exact absurd h0 (by simp)
      | some w =>
        rw [hl] at h0
        simp only [Option.getD_some] at h0
        rw [h0]
    have hmem := alookup_mem_pair hv
    have hlt := @filter_length_lt _ (fun p => p.1 != c) _ (c, (0 : Nat)) hmem (by simp)
    rw [him2] at hlt
    simp only [List.length_append, List.length_singleton]
    omega
  · have hres : processChild (im, zs) c =
        (im.map (fun p => if p.1 == c then (c, p.2 - 1) else p), zs) := by
      unfold processChild
      rw [if_neg h]
    rw [hres]
    simp only [him2]
    exact Nat.le_refl _

theorem foldl_processChild_length :
    ∀ (S : List String) (im : List (String × Nat)) (zs : List String),
      (S.foldl processChild (im, zs)).1.length + (S.foldl processChild (im, zs)).2.length ≤
        im.length + zs.length := by
  intro S
  induction S with
  | nil => intro im zs; exact Nat.le_refl _
  | cons c S2 ih =>
    intro im zs
    rw [List.foldl_cons]
    have h1 := processChild_length im zs c
    have h2 := ih (processChild (im, zs) c).1 (processChild (im, zs) c).2
    rw [Prod.mk.eta] at h2
    exact Nat.le_trans h2 h1

theorem processGen_length (G : Graph) :
    ∀ (gen : List String) (im : List (String × Nat)) (zs : List String),
      (processGen G gen im zs).1.length + (processGen G gen im zs).2.length ≤
        im.length + zs.length := by
  intro gen
  induction gen with
  | nil => intro im zs; exact Nat.le_refl _
  | cons g gen2 ih =>
    intro im zs
    show (processGen G gen2 _ _).1.length + (processGen G gen2 _ _).2.length ≤ _
    have h1 := foldl_processChild_length (successorsOf G g) im zs
    have h2 := ih ((successorsOf G g).foldl processChild (im, zs)).1
      ((successorsOf G g).foldl processChild (im, zs)).2
    exact Nat.le_trans h2 h1

theorem kahnAuxF_isSome (G : Graph) :
    ∀ (fuel : Nat) (im : List (String × Nat)) (zero acc : List String),
      im.length + zero.length < fuel →
      (kahnAuxF G fuel im zero acc).isSome = true := by
  intro fuel
  induction fuel with
  | zero => intro im zero acc h; omega
  | succ f ih =>
    intro im zero acc h
    cases zero with
    | nil => rfl
    | cons z zs =>
      show (kahnAuxF G f (processGen G (z :: zs) im []).1
        (processGen G (z :: zs) im []).2 (acc ++ (z :: zs))).isSome = true
      apply ih
      have := processGen_length G (z :: zs) im []
      simp only [List.length_nil, List.length_cons] at this h ⊢
      omega

theorem kahnRun_cases (G : Graph) :
    ∃ res, kahnAuxF G ((indegMap0 G).length + (zeroFront0 G).length + 1)
      (indegMap0 G) (zeroFront0 G) [] = some res ∧ kahnRun G = res := by
  have hs := kahnAuxF_isSome G ((indegMap0 G).length + (zeroFront0 G).length + 1)
    (indegMap0 G) (zeroFront0 G) [] (by omega)
  cases hk : kahnAuxF G ((indegMap0 G).length + (zeroFront0 G).length + 1)
      (indegMap0 G) (zeroFront0 G) [] with
  | none => rw [hk] at hs; exact absurd hs (by simp)
  | some res =>
    refine ⟨res, rfl, ?_⟩
    unfold kahnRun
    rw [hk]
    rfl

theorem alookup_dec (ls : List (String × Nat)) (c j : String) :
    alookup (ls.map (fun p => if p.1 == c then (c, p.2 - 1) else p)) j =
      if j = c then (alookup ls c).map (fun v => v - 1) else alookup ls j :=
  alookup_mapIf ls c (fun v => v - 1) j

theorem akeys_dec (ls : List (String × Nat)) (c : String) :
    akeys (ls.map (fun p => if p.1 == c then (c, p.2 - 1) else p)) = akeys ls :=
  akeys_mapIf ls c (fun v => v - 1)

theorem ite_mem_cons_ne {j c : String} {S2 : List String} (hjc : j ≠ c) :
    (if j ∈ c :: S2 then (1 : Nat) else 0) = if j ∈ S2 then 1 else 0 := by
  by_cases h : j ∈ S2
  · rw [if_pos (List.mem_cons_of_mem _ h), if_pos h]
  · have hnm : j ∉ c :: S2 := by
      intro hm
      rcases List.mem_cons.mp hm with h1 | h1
      · exact hjc h1
      · exact h h1
    rw [if_neg hnm, if_neg h]

/-- One node's expansion (the inner `for child in G.neighbors(node)` loop):
the indegree map keeps dominating the number of unexpanded in-edges, every
child moved to the next front has all its in-neighbors inside `P ++ [g]`,
and map keys plus front form an unchanged multiset. -/
theorem expandFold_spec (G : Graph) (g : String) (P : List String) :
    ∀ (S : List String) (im : List (String × Nat)) (zs : List String),
      S.Nodup →
      (∀ c ∈ S, (g, c) ∈ G.edges) →
      ((P ++ [g]) ++ (akeys im ++ zs)).Nodup →
      (∀ c ∈ akeys im, ∀ v, alookup im c = some v →
        inCnt G.edges (P ++ [g]) c + (if c ∈ S then 1 else 0) ≤ v) →
      (∀ c ∈ zs, ∀ a, (a, c) ∈ G.edges → a ∈ P ++ [g]) →
      ((akeys (S.foldl processChild (im, zs)).1 ++ (S.foldl processChild (im, zs)).2).Perm
        (akeys im ++ zs)) ∧
      (∀ c ∈ akeys (S.foldl processChild (im, zs)).1, ∀ v,
        alookup (S.foldl processChild (im, zs)).1 c = some v →
        inCnt G.edges (P ++ [g]) c ≤ v) ∧
      (∀ c ∈ (S.foldl processChild (im, zs)).2, ∀ a, (a, c) ∈ G.edges → a ∈ P ++ [g]) := by
  intro S
  induction S with
  | nil =>
    intro im zs _ _ _ hcnt hzs
    refine ⟨List.Perm.refl _, ?_, hzs⟩
    intro c hc v hv
    have := hcnt c hc v hv
    simpa using this
  | cons c S2 ih =>
    intro im zs hSnd hSedges hbundle hcnt hzs
    rw [List.foldl_cons]
    have hkeysnd : (akeys im).Nodup := by
      have h1 := (List.nodup_append.mp hbundle).2.1
      exact (List.nodup_append.mp h1).1
    by_cases hb : (lookupD (im.map (fun p => if p.1 == c then (c, p.2 - 1) else p)) c 1
        == 0) = true
    · -- child reaches zero: moved from the map to the next front
      have hres : processChild (im, zs) c =
          ((im.map (fun p => if p.1 == c then (c, p.2 - 1) else p)).filter
            (fun p => p.1 != c), zs ++ [c]) := by
        unfold processChild
        rw [if_pos hb]
      rw [hres]
      have h0 : lookupD (im.map (fun p => if p.1 == c then (c, p.2 - 1) else p)) c 1
          = 0 := by simpa using hb
      have hsome : ∃ v0, alookup im c = some v0 ∧ v0 - 1 = 0 := by
        unfold lookupD at h0
        rw [alookup_dec, if_pos rfl] at h0
        cases hl : alookup im c with
        | none => rw [hl] at h0; exact absurd h0 (by simp)
        | some v0 =>
          rw [hl] at h0
          simp only [Option.map_some', Option.getD_some] at h0
          exact ⟨v0, rfl, h0⟩
      obtain ⟨v0, hv0, hv0dec⟩ := hsome
      have hcmem : c ∈ akeys im := mem_akeys_of_alookup hv0
      have hcntc := hcnt c hcmem v0 hv0
      rw [if_pos (List.mem_cons_self _ _)] at hcntc
      have hzero : inCnt G.edges (P ++ [g]) c = 0 := by omega
      have hcin : ∀ a, (a, c) ∈ G.edges → a ∈ P ++ [g] :=
        inCnt_eq_zero _ _ _ hzero
      have hkeys3 : akeys ((im.map (fun p => if p.1 == c then (c, p.2 - 1) else p)).filter
          (fun p => p.1 != c)) = (akeys im).filter (fun x => x != c) := by
        rw [akeys_filterKey, akeys_dec]
      have hpermstep : (akeys im ++ zs).Perm
          (akeys ((im.map (fun p => if p.1 == c then (c, p.2 - 1) else p)).filter
            (fun p => p.1 != c)) ++ (zs ++ [c])) := by
        rw [hkeys3]
        have h1 : (akeys im).Perm (c :: (akeys im).filter (fun x => x != c)) :=
          nodup_perm_cons_filter _ c hkeysnd hcmem
        have h2 : (akeys im ++ zs).Perm
            ((c :: (akeys im).filter (fun x => x != c)) ++ zs) :=
          List.Perm.append_right zs h1
        have h3 : ((akeys im).filter (fun x => x != c) ++ zs ++ [c]).Perm
            (c :: ((akeys im).filter (fun x => x != c) ++ zs)) :=
          List.perm_append_singleton _ _
        have h4 : (akeys im ++ zs).Perm
            ((akeys im).filter (fun x => x != c) ++ zs ++ [c]) :=
          h2.trans h3.symm
        rw [List.append_assoc] at h4
        exact h4
      have hbundle3 : ((P ++ [g]) ++
          (akeys ((im.map (fun p => if p.1 == c then (c, p.2 - 1) else p)).filter
            (fun p => p.1 != c)) ++ (zs ++ [c]))).Nodup :=
        (List.Perm.append_left (P ++ [g]) hpermstep).nodup hbundle
      have hcnt3 : ∀ j ∈ akeys ((im.map (fun p => if p.1 == c then (c, p.2 - 1) else p)).filter
          (fun p => p.1 != c)), ∀ v,
          alookup ((im.map (fun p => if p.1 == c then (c, p.2 - 1) else p)).filter
            (fun p => p.1 != c)) j = some v →
          inCnt G.edges (P ++ [g]) j + (if j ∈ S2 then 1 else 0) ≤ v := by
        intro j hj v hv
        rw [hkeys3] at hj
        have hjmem := (List.mem_filter.mp hj).1
        have hjc : j ≠ c := by
          have := (List.mem_filter.mp hj).2
          simpa using this
        rw [alookup_filterKey_ne _ _ _ hjc, alookup_dec, if_neg hjc] at hv
        have := hcnt j hjmem v hv
        rw [ite_mem_cons_ne hjc] at this
        exact this
      have hzs3 : ∀ x ∈ zs ++ [c], ∀ a, (a, x) ∈ G.edges → a ∈ P ++ [g] := by
        intro x hx a ha
        rcases List.mem_append.mp hx with hx' | hx'
        · exact hzs x hx' a ha
        · rw [List.mem_singleton] at hx'
          subst hx'
          exact hcin a ha
      obtain ⟨ihP, ihC, ihZ⟩ := ih _ _ (List.nodup_cons.mp hSnd).2
        (fun x hx => hSedges x (List.mem_cons_of_mem _ hx)) hbundle3 hcnt3 hzs3
      exact ⟨ihP.trans hpermstep.symm, ihC, ihZ⟩
    · -- child stays in the map with a decremented count
      have hres : processChild (im, zs) c =
          (im.map (fun p => if p.1 == c then (c, p.2 - 1) else p), zs) := by
        unfold processChild
        rw [if_neg hb]
      rw [hres]
      have hkeys2 : akeys (im.map (fun p => if p.1 == c then (c, p.2 - 1) else p))
          = akeys im := akeys_dec im c
      have hbundle2 : ((P ++ [g]) ++
          (akeys (im.map (fun p => if p.1 == c then (c, p.2 - 1) else p)) ++ zs)).Nodup := by
        rw [hkeys2]
        exact hbundle
      have hcnt2 : ∀ j ∈ akeys (im.map (fun p => if p.1 == c then (c, p.2 - 1) else p)), ∀ v,
          alookup (im.map (fun p => if p.1 == c then (c, p.2 - 1) else p)) j = some v →
          inCnt G.edges (P ++ [g]) j + (if j ∈ S2 then 1 else 0) ≤ v := by
        intro j hj v hv
        rw [hkeys2] at hj
        by_cases hjc : j = c
        · subst hjc
          rw [alookup_dec, if_pos rfl] at hv
          cases hl : alookup im j with
          | none => rw [hl] at hv; exact absurd hv (by simp)
          | some v0 =>
            rw [hl] at hv
            simp only [Option.map_some'] at hv
            have hveq : v = v0 - 1 := (Option.some.inj hv).symm
            have hcntj := hcnt j hj v0 hl
            rw [if_pos (List.mem_cons_self _ _)] at hcntj
            have hjS2 : j ∉ S2 := (List.nodup_cons.mp hSnd).1
            rw [if_neg hjS2]
            omega
        · rw [alookup_dec, if_neg hjc] at hv
          have := hcnt j hj v hv
          rw [ite_mem_cons_ne hjc] at this
          exact this
      obtain ⟨ihP, ihC, ihZ⟩ := ih _ _ (List.nodup_cons.mp hSnd).2
        (fun x hx => hSedges x (List.mem_cons_of_mem _ hx)) hbundle2 hcnt2 hzs
      refine ⟨?_, ihC, ihZ⟩
      refine ihP.trans ?_
      rw [hkeys2]

/-- Expanding a whole generation preserves the count bound (with the
generation added to the expanded set), keeps map keys plus front an
unchanged multiset, and every node moved to the next front has all its
in-neighbors among the expanded nodes. -/
theorem processGen_spec (G : Graph) (hE : G.edges.Nodup) :
    ∀ (gen P : List String) (im : List (String × Nat)) (zs : List String),
      (P ++ (gen ++ (akeys im ++ zs))).Nodup →
      (∀ c ∈ akeys im, ∀ v, alookup im c = some v → inCnt G.edges P c ≤ v) →
      (∀ c ∈ zs, ∀ a, (a, c) ∈ G.edges → a ∈ P) →
      ((akeys (processGen G gen im zs).1 ++ (processGen G gen im zs).2).Perm
        (akeys im ++ zs)) ∧
      (∀ c ∈ akeys (processGen G gen im zs).1, ∀ v,
        alookup (processGen G gen im zs).1 c = some v → inCnt G.edges (P ++ gen) c ≤ v) ∧
      (∀ c ∈ (processGen G gen im zs).2, ∀ a, (a, c) ∈ G.edges → a ∈ P ++ gen) := by
  intro gen
  induction gen with
  | nil =>
    intro P im zs _ hcnt hzs
    refine ⟨List.Perm.refl _, ?_, ?_⟩
    · intro c hc v hv
      rw [List.append_nil]
      exact hcnt c hc v hv
    · intro c hc a ha
      rw [List.append_nil]
      exact hzs c hc a ha
  | cons g gen2 ih =>
    intro P im zs hbundle hcnt hzs
    have hgP : g ∉ P := by
      have hdisj := (List.nodup_append.mp hbundle).2.2
      intro hg
      exact hdisj hg (List.mem_cons_self _ _)
    have hbundleE : ((P ++ [g]) ++ (akeys im ++ zs)).Nodup := by
      have hsub : List.Sublist (P ++ ([g] ++ (akeys im ++ zs)))
          (P ++ ([g] ++ (gen2 ++ (akeys im ++ zs)))) :=
        List.Sublist.append_left
          (List.Sublist.append_left (List.sublist_append_right _ _) [g]) P
      rw [List.append_assoc]
      exact List.Nodup.sublist hsub hbundle
    have hcntE : ∀ c ∈ akeys im, ∀ v, alookup im c = some v →
        inCnt G.edges (P ++ [g]) c + (if c ∈ successorsOf G g then 1 else 0) ≤ v := by
      intro c hc v hv
      have h1 := hcnt c hc v hv
      rw [inCnt_snoc G.edges hE g c P hgP] at h1
      by_cases hm : (g, c) ∈ G.edges
      · rw [if_pos ((mem_successorsOf G g c).mpr hm)]
        rw [if_pos hm] at h1
        exact h1
      · rw [if_neg (fun hs => hm ((mem_successorsOf G g c).mp hs))]
        rw [if_neg hm] at h1
        omega
    have hzsE : ∀ c ∈ zs, ∀ a, (a, c) ∈ G.edges → a ∈ P ++ [g] := by
      intro c hc a ha
      exact List.mem_append.mpr (Or.inl (hzs c hc a ha))
    obtain ⟨ePerm, eCnt, eZs⟩ := expandFold_spec G g P (successorsOf G g) im zs
      (successorsOf_nodup G hE g)
      (fun c hc => (mem_successorsOf G g c).mp hc) hbundleE hcntE hzsE
    have hstep : processGen G (g :: gen2) im zs =
        processGen G gen2 ((successorsOf G g).foldl processChild (im, zs)).1
          ((successorsOf G g).foldl processChild (im, zs)).2 := rfl
    rw [hstep]
    have hbundleR : ((P ++ [g]) ++ (gen2 ++
        (akeys ((successorsOf G g).foldl processChild (im, zs)).1 ++
          ((successorsOf G g).foldl processChild (im, zs)).2))).Nodup := by
      have hpermInner : (gen2 ++
          (akeys ((successorsOf G g).foldl processChild (im, zs)).1 ++
            ((successorsOf G g).foldl processChild (im, zs)).2)).Perm
          (gen2 ++ (akeys im ++ zs)) := List.Perm.append_left gen2 ePerm
      have hperm2 := List.Perm.append_left (P ++ [g]) hpermInner
      have hb2 : ((P ++ [g]) ++ (gen2 ++ (akeys im ++ zs))).Nodup := by
        rw [List.append_assoc]
        exact hbundle
      exact hperm2.symm.nodup hb2
    obtain ⟨rPerm, rCnt, rZs⟩ := ih (P ++ [g])
      ((successorsOf G g).foldl processChild (im, zs)).1
      ((successorsOf G g).foldl processChild (im, zs)).2 hbundleR eCnt eZs
    refine ⟨rPerm.trans ePerm, ?_, ?_⟩
    · intro c hc v hv
      have := rCnt c hc v hv
      rw [List.append_assoc] at this
      exact this
    · intro c hc a ha
      have := rZs c hc a ha
      rw [List.append_assoc] at this
      exact this

/-- The generation loop: when it finishes, every node yielded so far has all
its in-neighbors strictly before it in the yielded order, and if the
indegree map was exhausted the yielded order is a permutation of the node
set (Kahn's algorithm is a correct topological sort on acyclic graphs). -/
theorem kahnAuxF_spec (G : Graph) (hE : G.edges.Nodup) (hN : (nodeIds G).Nodup) :
    ∀ (fuel : Nat) (im : List (String × Nat)) (zero acc : List String)
      (res : List String × Bool),
      kahnAuxF G fuel im zero acc = some res →
      ((acc ++ (zero ++ akeys im)).Perm (nodeIds G)) →
      (∀ c ∈ akeys im, ∀ v, alookup im c = some v → inCnt G.edges acc c ≤ v) →
      (∀ c ∈ zero, ∀ a, (a, c) ∈ G.edges → a ∈ acc) →
      (∀ c ∈ acc, ∀ a, (a, c) ∈ G.edges → before acc a c) →
      (∀ c ∈ res.1, ∀ a, (a, c) ∈ G.edges → before res.1 a c) ∧
      (res.2 = true → res.1.Perm (nodeIds G)) := by
  intro fuel
  induction fuel with
  | zero =>
    intro im zero acc res h
    exact absurd h (by simp [kahnAuxF])
  | succ f ih =>
    intro im zero acc res hsome hperm hcnt hz hacc
    cases zero with
    | nil =>
      have hres : res = (acc, im.isEmpty) := by
        have heq : kahnAuxF G (f + 1) im [] acc = some (acc, im.isEmpty) := rfl
        rw [heq] at hsome
        exact (Option.some.inj hsome).symm
      subst hres
      refine ⟨hacc, ?_⟩
      intro hfeas
      have him : im = [] := by
        cases him2 : im with
        | nil => rfl
        | cons p t =>
          rw [him2] at hfeas
          exact absurd hfeas (by simp)
      subst him
      simpa [akeys] using hperm
    | cons z zs =>
      have hrec : kahnAuxF G f (processGen G (z :: zs) im []).1
          (processGen G (z :: zs) im []).2 (acc ++ (z :: zs)) = some res := hsome
      have hlistnd : (acc ++ ((z :: zs) ++ akeys im)).Nodup := hperm.symm.nodup hN
      have hbundle : (acc ++ ((z :: zs) ++ (akeys im ++ []))).Nodup := by
        rw [List.append_nil]
        exact hlistnd
      obtain ⟨pPerm, pCnt, pZs⟩ := processGen_spec G hE (z :: zs) acc im [] hbundle hcnt
        (fun c hc => absurd hc (List.not_mem_nil _))
      rw [List.append_nil] at pPerm
      have hpermR : ((acc ++ (z :: zs)) ++
          ((processGen G (z :: zs) im []).2 ++
            akeys (processGen G (z :: zs) im []).1)).Perm (nodeIds G) := by
        have h1 : ((processGen G (z :: zs) im []).2 ++
            akeys (processGen G (z :: zs) im []).1).Perm (akeys im) :=
          (List.perm_append_comm).trans pPerm
        have h2 := List.Perm.append_left (acc ++ (z :: zs)) h1
        have h4 : ((acc ++ (z :: zs)) ++ akeys im).Perm (nodeIds G) := by
          rw [List.append_assoc]
          exact hperm
        exact h2.trans h4
      have haccR : ∀ c ∈ acc ++ (z :: zs), ∀ a, (a, c) ∈ G.edges →
          before (acc ++ (z :: zs)) a c := by
        intro c hc a ha
        rcases List.mem_append.mp hc with hc2 | hc2
        · exact before_append_right _ _ _ _ (hacc c hc2 a ha)
        · have haacc : a ∈ acc := hz c hc2 a ha
          have hcnacc : c ∉ acc := by
            have hdisj := (List.nodup_append.mp hlistnd).2.2
            intro hcm
            exact hdisj hcm (List.mem_append.mpr (Or.inl hc2))
          exact before_append_of_mem _ _ _ _ haacc hcnacc
      exact ih (processGen G (z :: zs) im []).1 (processGen G (z :: zs) im []).2
        (acc ++ (z :: zs)) res hrec hpermR pCnt pZs haccR

theorem akeys_indegMap0 (G : Graph) :
    akeys (indegMap0 G) = (nodeIds G).filter (fun n => !(inDegree G n == 0)) := by
  unfold indegMap0
  have hgen : ∀ l : List String,
      akeys (l.filterMap (fun n =>
        if inDegree G n > 0 then some (n, inDegree G n) else none))
      = l.filter (fun n => !(inDegree G n == 0)) := by
    intro l
    induction l with
    | nil => rfl
    | cons n t ih =>
      by_cases h : inDegree G n > 0
      · simp only [List.filterMap_cons, List.filter_cons]
        rw [if_pos h, if_pos (show (!(inDegree G n == 0)) = true by simp; omega)]
        show n :: akeys _ = n :: _
        rw [ih]
      · simp only [List.filterMap_cons, List.filter_cons]
        rw [if_neg h, if_neg (show ¬((!(inDegree G n == 0)) = true) by simp; omega)]
        exact ih
  exact hgen (nodeIds G)

theorem alookup_indegMap0 (G : Graph) (c : String) (v : Nat)
    (hv : alookup (indegMap0 G) c = some v) : v = inDegree G c := by
  have hmem := alookup_mem_pair hv
  unfold indegMap0 at hmem
  rw [List.mem_filterMap] at hmem
  obtain ⟨a, _, ha⟩ := hmem
  by_cases h : inDegree G a > 0
  · rw [if_pos h] at ha
    obtain ⟨h1, h2⟩ := Prod.mk.inj (Option.some.inj ha)
    rw [← h1]
    exact h2.symm
  · rw [if_neg h] at ha
    exact Option.noConfusion ha

theorem zeroFront0_no_in_edges (G : Graph) (c : String) (hc : c ∈ zeroFront0 G)
    (a : String) (ha : (a, c) ∈ G.edges) : False := by
  unfold zeroFront0 at hc
  have hdeg : inDegree G c = 0 := by
    have := (List.mem_filter.mp hc).2
    simpa using this
  have hmem : (a, c) ∈ G.edges.filter (fun e => e.2 == c) :=
    List.mem_filter.mpr ⟨ha, by simp⟩
  have hpos := List.length_pos.mpr (List.ne_nil_of_mem hmem)
  unfold inDegree at hdeg
  omega

/-- Kahn topological-sort correctness on the model: for a graph with
duplicate-free nodes/edges whose edge targets are nodes, feasibility means
the yielded order is a permutation of the node set, and every edge's source
is yielded strictly before its target. -/
theorem kahn_topo (G : Graph) (hE : G.edges.Nodup) (hN : (nodeIds G).Nodup)
    (hend : ∀ e ∈ G.edges, e.2 ∈ nodeIds G)
    (hfeas : kahnFeasible G = true) :
    (kahnOrder G).Perm (nodeIds G) ∧
    (∀ e ∈ G.edges, before (kahnOrder G) e.1 e.2) := by
  obtain ⟨res, hsome, hrun⟩ := kahnRun_cases G
  have hperm0 : (([] : List String) ++ (zeroFront0 G ++ akeys (indegMap0 G))).Perm
      (nodeIds G) := by
    rw [List.nil_append, akeys_indegMap0]
    exact List.filter_append_perm _ _
  have hcnt0 : ∀ c ∈ akeys (indegMap0 G), ∀ v, alookup (indegMap0 G) c = some v →
      inCnt G.edges [] c ≤ v := by
    intro c _ v hv
    rw [← inDegree_eq_inCnt, alookup_indegMap0 G c v hv]
  have hz0 : ∀ c ∈ zeroFront0 G, ∀ a, (a, c) ∈ G.edges → a ∈ ([] : List String) := by
    intro c hc a ha
    exact absurd ha (fun ha2 => zeroFront0_no_in_edges G c hc a ha2)
  have hacc0 : ∀ c ∈ ([] : List String), ∀ a, (a, c) ∈ G.edges → before [] a c := by
    intro c hc
    exact absurd hc (List.not_mem_nil _)
  obtain ⟨htopo, hcomp⟩ := kahnAuxF_spec G hE hN _ _ _ _ res hsome hperm0 hcnt0 hz0 hacc0
  have h1 : kahnOrder G = res.1 := by
    unfold kahnOrder
    rw [hrun]
  have h2 : res.2 = true := by
    have : kahnFeasible G = res.2 := by
      unfold kahnFeasible
      rw [hrun]
    rw [← this, hfeas]
  constructor
  · rw [h1]
    exact hcomp h2
  · intro e he
    rw [h1]
    have hmem : e.2 ∈ res.1 := ((hcomp h2).mem_iff).mpr (hend e he)
    exact htopo e.2 hmem e.1 he

/-! ## Facts about the built graph needed for C3 and C6 -/

theorem addEdge_nodup (es : List (String × String)) (e : String × String)
    (h : es.Nodup) : (addEdge es e).Nodup := by
  unfold addEdge
  by_cases hm : e ∈ es
  · rw [if_pos hm]
    exact h
  · rw [if_neg hm]
    refine List.Nodup.append h (List.nodup_singleton _) ?_
    intro a ha hb
    rw [List.mem_singleton] at hb
    subst hb
    exact hm ha

theorem depsFold_nodup (ids : List String) (rid : String) :
    ∀ (ds : List String) (acc : List (String × String)), acc.Nodup →
      (ds.foldl (fun a d => if d ∈ ids then addEdge a (d, rid) else a) acc).Nodup := by
  intro ds
  induction ds with
  | nil => exact fun acc h => h
  | cons d rest ih =>
    intro acc h
    rw [List.foldl_cons]
    by_cases hd : d ∈ ids
    · rw [if_pos hd]
      exact ih _ (addEdge_nodup _ _ h)
    · rw [if_neg hd]
      exact ih _ h

theorem build_edges_nodup (records : List Record) : (build_graph records).edges.Nodup := by
  have hgen : ∀ (rs : List Record) (acc : List (String × String)), acc.Nodup →
      (rs.foldl (fun acc2 r => (parse_dependencies r.dependencias).foldl
        (fun a d =>
          if d ∈ akeys (records.foldl (fun a2 r2 => aset a2 r2.id (mkAttrs r2)) [])
          then addEdge a (d, r.id) else a) acc2) acc).Nodup := by
    intro rs
    induction rs with
    | nil => exact fun acc h => h
    | cons r rest ih =>
      intro acc h
      rw [List.foldl_cons]
      exact ih _ (depsFold_nodup _ _ _ _ h)
  exact hgen records [] List.nodup_nil

theorem build_nodes_nodup (records : List Record) :
    (nodeIds (build_graph records)).Nodup := by
  have hg : ∀ (rs : List Record) (acc : List (String × NodeAttrs)),
      (akeys acc).Nodup →
      (akeys (rs.foldl (fun a r => aset a r.id (mkAttrs r)) acc)).Nodup := by
    intro rs
    induction rs with
    | nil => exact fun acc h => h
    | cons r rest ih =>
      intro acc h
      rw [List.foldl_cons]
      exact ih _ (akeys_nodup_aset _ _ _ h)
  exact hg records [] (by simp [akeys])

theorem build_edge_endpoints (records : List Record) :
    ∀ e ∈ (build_graph records).edges,
      e.1 ∈ nodeIds (build_graph records) ∧ e.2 ∈ nodeIds (build_graph records) := by
  intro e he
  have hb : (build_graph records).edges =
      records.foldl (fun acc2 r => (parse_dependencies r.dependencias).foldl
        (fun a d =>
          if d ∈ akeys (records.foldl (fun a2 r2 => aset a2 r2.id (mkAttrs r2)) [])
          then addEdge a (d, r.id) else a) acc2) [] := rfl
  rw [hb, mem_edgesFold] at he
  rcases he with h | ⟨r, hr, d, _, hi, hew⟩
  · exact absurd h (List.not_mem_nil _)
  · constructor
    · rw [hew]
      exact hi
    · rw [hew]
      have : r.id ∈ records.map Record.id := List.mem_map.mpr ⟨r, hr, rfl⟩
      show r.id ∈ akeys (records.foldl (fun a r => aset a r.id (mkAttrs r)) [])
      rw [mem_keys_foldl_aset]
      exact Or.inr this

theorem lookupD_eq_of_alookup {α : Type} {ls : List (String × α)} {k : String} {v : α}
    (d : α) (h : alookup ls k = some v) : lookupD ls k d = v := by
  unfold lookupD
  rw [h]
  rfl

/-- C3: on an acyclic built graph (the topological sort of the source
succeeds, `kahnFeasible`), `calculate_hierarchical_levels` assigns level 0
to every node with no predecessors, `max(level[p] for p in predecessors) + 1`
to every other node, and consequently the level is strictly increasing along
every edge. -/
theorem C3_dag_levels (records : List Record)
    (hfeas : kahnFeasible (build_graph records) = true) :
    (∀ n ∈ nodeIds (build_graph records), predsOf (build_graph records) n = [] →
      lookupD (calculate_hierarchical_levels (build_graph records)) n 0 = 0) ∧
    (∀ n ∈ nodeIds (build_graph records), predsOf (build_graph records) n ≠ [] →
      lookupD (calculate_hierarchical_levels (build_graph records)) n 0 =
        ((predsOf (build_graph records) n).map
          (fun p => lookupD (calculate_hierarchical_levels (build_graph records)) p 0)).foldl
            Nat.max 0 + 1) ∧
    (∀ e ∈ (build_graph records).edges,
      lookupD (calculate_hierarchical_levels (build_graph records)) e.1 0 <
        lookupD (calculate_hierarchical_levels (build_graph records)) e.2 0) := by
  obtain ⟨hpermK, htopoK⟩ := kahn_topo (build_graph records)
    (build_edges_nodup records) (build_nodes_nodup records)
    (fun e he => (build_edge_endpoints records e he).2) hfeas
  have hcalc : calculate_hierarchical_levels (build_graph records) =
      levelsTopo (build_graph records) (kahnOrder (build_graph records)) [] := by
    unfold calculate_hierarchical_levels
    rw [if_pos hfeas]
  have hnd : (([] : List String) ++ kahnOrder (build_graph records)).Nodup := by
    rw [List.nil_append]
    exact hpermK.symm.nodup (build_nodes_nodup records)
  have htopo2 : ∀ e ∈ (build_graph records).edges,
      e.2 ∈ kahnOrder (build_graph records) →
      before ([] ++ kahnOrder (build_graph records)) e.1 e.2 := by
    intro e he _
    rw [List.nil_append]
    exact htopoK e he
  obtain ⟨_, hmain⟩ := levelsTopo_spec (build_graph records)
    (kahnOrder (build_graph records)) [] [] rfl hnd htopo2
  have hmemK : ∀ n ∈ nodeIds (build_graph records),
      n ∈ kahnOrder (build_graph records) :=
    fun n hn => (hpermK.mem_iff).mpr hn
  refine ⟨?_, ?_, ?_⟩
  · intro n hn hp
    have hv := lookupD_eq_of_alookup 0 (hmain n (hmemK n hn))
    rw [hcalc, hv, hp]
    rfl
  · intro n hn hp
    have hv := lookupD_eq_of_alookup 0 (hmain n (hmemK n hn))
    have hps : (predsOf (build_graph records) n).isEmpty = false := by
      cases hq : predsOf (build_graph records) n with
      | nil => exact absurd hq hp
      | cons a t => rfl
    rw [hcalc, hv, hps]
    rfl
  · intro e he
    have h2mem := hmemK e.2 ((build_edge_endpoints records e he).2)
    have hv2 := lookupD_eq_of_alookup 0 (hmain e.2 h2mem)
    have hpredmem : e.1 ∈ predsOf (build_graph records) e.2 :=
      (mem_predsOf (build_graph records) e.2 e.1).mpr he
    have hps : (predsOf (build_graph records) e.2).isEmpty = false := by
      cases hq : predsOf (build_graph records) e.2 with
      | nil =>
        rw [hq] at hpredmem
        exact absurd hpredmem (List.not_mem_nil _)
      | cons a t => rfl
    rw [hcalc, hv2, hps]
    have hmm : lookupD (levelsTopo (build_graph records)
          (kahnOrder (build_graph records)) []) e.1 0 ∈
        (predsOf (build_graph records) e.2).map
          (fun p => lookupD (levelsTopo (build_graph records)
            (kahnOrder (build_graph records)) []) p 0) :=
      List.mem_map.mpr ⟨e.1, hpredmem, rfl⟩
    have hle := le_foldl_max _ 0 _ hmm
    simp only [Bool.false_eq_true, if_false]
    omega

/-- C3 witness: the theorem applied to the two-record chain, whose graph is
acyclic. -/
theorem C3_dag_levels_witness :
    kahnFeasible (build_graph [mkRec "RM-001" none, mkRec "RM-002" (some "RM-001")])
      = true ∧
    ((∀ n ∈ nodeIds (build_graph [mkRec "RM-001" none, mkRec "RM-002" (some "RM-001")]),
      predsOf (build_graph [mkRec "RM-001" none, mkRec "RM-002" (some "RM-001")]) n = [] →
      lookupD (calculate_hierarchical_levels
        (build_graph [mkRec "RM-001" none, mkRec "RM-002" (some "RM-001")])) n 0 = 0) ∧
    (∀ n ∈ nodeIds (build_graph [mkRec "RM-001" none, mkRec "RM-002" (some "RM-001")]),
      predsOf (build_graph [mkRec "RM-001" none, mkRec "RM-002" (some "RM-001")]) n ≠ [] →
      lookupD (calculate_hierarchical_levels
        (build_graph [mkRec "RM-001" none, mkRec "RM-002" (some "RM-001")])) n 0 =
        ((predsOf (build_graph [mkRec "RM-001" none, mkRec "RM-002" (some "RM-001")]) n).map
          (fun p => lookupD (calculate_hierarchical_levels
            (build_graph [mkRec "RM-001" none, mkRec "RM-002" (some "RM-001")])) p 0)).foldl
            Nat.max 0 + 1) ∧
    (∀ e ∈ (build_graph [mkRec "RM-001" none, mkRec "RM-002" (some "RM-001")]).edges,
      lookupD (calculate_hierarchical_levels
        (build_graph [mkRec "RM-001" none, mkRec "RM-002" (some "RM-001")])) e.1 0 <
        lookupD (calculate_hierarchical_levels
          (build_graph [mkRec "RM-001" none, mkRec "RM-002" (some "RM-001")])) e.2 0)) :=
  ⟨by decide, C3_dag_levels [mkRec "RM-001" none, mkRec "RM-002" (some "RM-001")] (by decide)⟩

/-! ## C6 groundwork: the fallback BFS -/

theorem length_filter_le_of_imp {α : Type} (p q : α → Bool) :
    ∀ (l : List α), (∀ x ∈ l, q x = true → p x = true) →
      (l.filter q).length ≤ (l.filter p).length := by
  intro l
  induction l with
  | nil => intro _; exact Nat.le_refl _
  | cons a t ih =>
    intro h
    have ht := ih (fun x hx => h x (List.mem_cons_of_mem _ hx))
    rw [List.filter_cons, List.filter_cons]
    by_cases hq : q a = true
    · rw [if_pos hq, if_pos (h a (List.mem_cons_self _ _) hq)]
      simpa using ht
    · rw [if_neg hq]
      by_cases hp : p a = true
      · rw [if_pos hp]
        exact Nat.le_trans ht (by simp)
      · rw [if_neg hp]
        exact ht

theorem length_filter_lt_of_mem {α : Type} (p q : α → Bool) :
    ∀ (l : List α) (x : α), x ∈ l → p x = true → q x = false →
      (∀ y ∈ l, q y = true → p y = true) →
      (l.filter q).length < (l.filter p).length := by
  intro l
  induction l with
  | nil => intro x h; exact absurd h (List.not_mem_nil _)
  | cons a t ih =>
    intro x hx hp hq h
    have hmono := length_filter_le_of_imp p q t (fun y hy => h y (List.mem_cons_of_mem _ hy))
    rw [List.filter_cons, List.filter_cons]
    rcases List.mem_cons.mp hx with rfl | hx2
    · rw [if_neg (by simp [hq]), if_pos hp]
      simpa using Nat.lt_succ_of_le hmono
    · have hstrict := ih x hx2 hp hq (fun y hy => h y (List.mem_cons_of_mem _ hy))
      by_cases hqa : q a = true
      · rw [if_pos hqa, if_pos (h a (List.mem_cons_self _ _) hqa)]
        simpa using hstrict
      · rw [if_neg hqa]
        by_cases hpa : p a = true
        · rw [if_pos hpa]
          simp only [List.length_cons]
          exact Nat.lt_succ_of_lt hstrict
        · rw [if_neg hpa]
          exact hstrict

theorem successorsOf_length_le (G : Graph) (n : String) :
    (successorsOf G n).length ≤ G.edges.length := by
  unfold successorsOf
  rw [List.length_map]
  exact List.length_filter_le _ _

theorem bfsLoopF_isSome (G : Graph) :
    ∀ (fuel : Nat) (queue : List (String × Nat)) (visited : List String)
      (levels : List (String × Nat)),
      bfsFuel G queue visited ≤ fuel →
      (bfsLoopF G fuel queue visited levels).isSome = true := by
  intro fuel
  induction fuel with
  | zero =>
    intro queue visited levels h
    unfold bfsFuel at h
    omega
  | succ f ih =>
    intro queue visited levels h
    cases queue with
    | nil => rfl
    | cons p q2 =>
      obtain ⟨n, lv⟩ := p
      by_cases hv : n ∈ visited
      · have hstep : bfsLoopF G (f + 1) ((n, lv) :: q2) visited levels =
            bfsLoopF G f q2 visited levels := by
          show (if n ∈ visited then bfsLoopF G f q2 visited levels else _) = _
          rw [if_pos hv]
        rw [hstep]
        apply ih
        unfold bfsFuel at h ⊢
        simp only [List.length_cons] at h
        omega
      · have hstep : bfsLoopF G (f + 1) ((n, lv) :: q2) visited levels =
            bfsLoopF G f
              (q2 ++ ((successorsOf G n).filter (fun s => decide (s ∉ visited))).map
                (fun s => (s, lv + 1)))
              (visited ++ [n])
              (aset levels n (Nat.max (lookupD levels n 0) lv)) := by
          show (if n ∈ visited then _ else _) = _
          rw [if_neg hv]
        rw [hstep]
        apply ih
        have hpushed : (((successorsOf G n).filter
            (fun s => decide (s ∉ visited))).map (fun s => (s, lv + 1))).length ≤
            G.edges.length := by
          rw [List.length_map]
          exact Nat.le_trans (List.length_filter_le _ _) (successorsOf_length_le G n)
        have hmono : ((allIds G).filter (fun x => decide (x ∉ visited ++ [n]))).length ≤
            ((allIds G).filter (fun x => decide (x ∉ visited))).length := by
          apply length_filter_le_of_imp
          intro x _ hx
          simp only [decide_eq_true_eq] at hx ⊢
          intro hxm
          exact hx (List.mem_append.mpr (Or.inl hxm))
        by_cases hmem : n ∈ allIds G
        · have hstrictF : ((allIds G).filter (fun x => decide (x ∉ visited ++ [n]))).length <
              ((allIds G).filter (fun x => decide (x ∉ visited))).length := by
            apply length_filter_lt_of_mem _ _ _ n hmem
            · simp only [decide_eq_true_eq]
              exact hv
            · simp only [decide_eq_false_iff_not]
              intro hc
              exact hc (List.mem_append.mpr (Or.inr (List.mem_singleton_self _)))
            · intro y _ hy
              simp only [decide_eq_true_eq] at hy ⊢
              intro hym
              exact hy (List.mem_append.mpr (Or.inl hym))
          unfold bfsFuel at h ⊢
          simp only [List.length_cons, List.length_append] at h ⊢
          have hmul : (((allIds G).filter
              (fun x => decide (x ∉ visited ++ [n]))).length + 1) * (G.edges.length + 1) ≤
              ((allIds G).filter (fun x => decide (x ∉ visited))).length *
                (G.edges.length + 1) :=
            Nat.mul_le_mul_right _ hstrictF
          rw [Nat.add_mul, Nat.one_mul] at hmul
          omega
        · have hsucc : successorsOf G n = [] := by
            unfold successorsOf
            have : G.edges.filter (fun e => e.1 == n) = [] := by
              rw [List.filter_eq_nil_iff]
              intro e he hcond
              apply hmem
              unfold allIds
              have h1 : e.1 = n := by simpa using hcond
              refine List.mem_append.mpr (Or.inl (List.mem_append.mpr (Or.inr ?_)))
              exact List.mem_map.mpr ⟨e, he, h1⟩
            rw [this]
            rfl
          have hFeq : ((allIds G).filter (fun x => decide (x ∉ visited ++ [n]))).length =
              ((allIds G).filter (fun x => decide (x ∉ visited))).length := by
            congr 1
            apply List.filter_congr
            intro x hx
            simp only [decide_eq_decide]
            constructor
            · intro h1 h2
              exact h1 (List.mem_append.mpr (Or.inl h2))
            · intro h1 h2
              rcases List.mem_append.mp h2 with h3 | h3
              · exact h1 h3
              · rw [List.mem_singleton] at h3
                subst h3
                exact hmem hx
          rw [hsucc]
          unfold bfsFuel at h ⊢
          simp only [List.filter_nil, List.map_nil, List.append_nil, List.length_cons] at h ⊢
          rw [hFeq]
          omega

theorem bfsRun_cases (G : Graph) (queue : List (String × Nat)) (visited : List String)
    (levels : List (String × Nat)) :
    ∃ res, bfsLoopF G (bfsFuel G queue visited) queue visited levels = some res ∧
      bfsRun G queue visited levels = res := by
  have hs := bfsLoopF_isSome G (bfsFuel G queue visited) queue visited levels
    (Nat.le_refl _)
  cases hk : bfsLoopF G (bfsFuel G queue visited) queue visited levels with
  | none => rw [hk] at hs; exact absurd hs (by simp)
  | some res =>
    refine ⟨res, rfl, ?_⟩
    unfold bfsRun
    rw [hk]
    rfl

theorem bfsLoopF_complete (G : Graph) :
    ∀ (fuel : Nat) (queue : List (String × Nat)) (visited : List String)
      (levels : List (String × Nat)) (res : List (String × Nat) × List String),
      bfsLoopF G fuel queue visited levels = some res →
      ∀ x, (x ∈ visited ∨ x ∈ queue.map Prod.fst) → x ∈ res.2 := by
  intro fuel
  induction fuel with
  | zero =>
    intro queue visited levels res h
    exact absurd h (by simp [bfsLoopF])
  | succ f ih =>
    intro queue visited levels res hsome x hx
    cases queue with
    | nil =>
      have hres : res = (levels, visited) := by
        have heq : bfsLoopF G (f + 1) [] visited levels = some (levels, visited) := rfl
        rw [heq] at hsome
        exact (Option.some.inj hsome).symm
      subst hres
      rcases hx with h | h
      · exact h
      · exact absurd h (by simp)
    | cons p q2 =>
      obtain ⟨n, lv⟩ := p
      by_cases hv : n ∈ visited
      · have hstep : bfsLoopF G (f + 1) ((n, lv) :: q2) visited levels =
            bfsLoopF G f q2 visited levels := by
          show (if n ∈ visited then bfsLoopF G f q2 visited levels else _) = _
          rw [if_pos hv]
        rw [hstep] at hsome
        apply ih q2 visited levels res hsome x
        rcases hx with h | h
        · exact Or.inl h
        · rw [List.map_cons] at h
          rcases List.mem_cons.mp h with rfl | h2
          · exact Or.inl hv
          · exact Or.inr h2
      · have hstep : bfsLoopF G (f + 1) ((n, lv) :: q2) visited levels =
            bfsLoopF G f
              (q2 ++ ((successorsOf G n).filter (fun s => decide (s ∉ visited))).map
                (fun s => (s, lv + 1)))
              (visited ++ [n])
              (aset levels n (Nat.max (lookupD levels n 0) lv)) := by
          show (if n ∈ visited then _ else _) = _
          rw [if_neg hv]
        rw [hstep] at hsome
        apply ih _ _ _ res hsome x
        rcases hx with h | h
        · exact Or.inl (List.mem_append.mpr (Or.inl h))
        · rw [List.map_cons] at h
          rcases List.mem_cons.mp h with rfl | h2
          · exact Or.inl (List.mem_append.mpr (Or.inr (List.mem_singleton_self _)))
          · refine Or.inr ?_
            rw [List.map_append]
            exact List.mem_append.mpr (Or.inl h2)

theorem bfsLoopF_closed (G : Graph) :
    ∀ (fuel : Nat) (queue : List (String × Nat)) (visited : List String)
      (levels : List (String × Nat)) (res : List (String × Nat) × List String),
      bfsLoopF G fuel queue visited levels = some res →
      (∀ x y, x ∈ visited → (x, y) ∈ G.edges → y ∈ visited ∨ y ∈ queue.map Prod.fst) →
      ∀ x y, x ∈ res.2 → (x, y) ∈ G.edges → y ∈ res.2 := by
  intro fuel
  induction fuel with
  | zero =>
    intro queue visited levels res h
    exact absurd h (by simp [bfsLoopF])
  | succ f ih =>
    intro queue visited levels res hsome hinv
    cases queue with
    | nil =>
      have hres : res = (levels, visited) := by
        have heq : bfsLoopF G (f + 1) [] visited levels = some (levels, visited) := rfl
        rw [heq] at hsome
        exact (Option.some.inj hsome).symm
      subst hres
      intro x y hx hxy
      rcases hinv x y hx hxy with h | h
      · exact h
      · exact absurd h (by simp)
    | cons p q2 =>
      obtain ⟨n, lv⟩ := p
      by_cases hv : n ∈ visited
      · have hstep : bfsLoopF G (f + 1) ((n, lv) :: q2) visited levels =
            bfsLoopF G f q2 visited levels := by
          show (if n ∈ visited then bfsLoopF G f q2 visited levels else _) = _
          rw [if_pos hv]
        rw [hstep] at hsome
        apply ih q2 visited levels res hsome
        intro x y hx hxy
        rcases hinv x y hx hxy with h | h
        · exact Or.inl h
        · rw [List.map_cons] at h
          rcases List.mem_cons.mp h with rfl | h2
          · exact Or.inl hv
          · exact Or.inr h2
      · have hstep : bfsLoopF G (f + 1) ((n, lv) :: q2) visited levels =
            bfsLoopF G f
              (q2 ++ ((successorsOf G n).filter (fun s => decide (s ∉ visited))).map
                (fun s => (s, lv + 1)))
              (visited ++ [n])
              (aset levels n (Nat.max (lookupD levels n 0) lv)) := by
          show (if n ∈ visited then _ else _) = _
          rw [if_neg hv]
        rw [hstep] at hsome
        apply ih _ _ _ res hsome
        intro x y hx hxy
        rcases List.mem_append.mp hx with hx2 | hx2
        · rcases hinv x y hx2 hxy with h | h
          · exact Or.inl (List.mem_append.mpr (Or.inl h))
          · rw [List.map_cons] at h
            rcases List.mem_cons.mp h with rfl | h2
            · exact Or.inl (List.mem_append.mpr (Or.inr (List.mem_singleton_self _)))
            · refine Or.inr ?_
              rw [List.map_append]
              exact List.mem_append.mpr (Or.inl h2)
        · rw [List.mem_singleton] at hx2
          subst hx2
          have hsu : y ∈ successorsOf G x := (mem_successorsOf G x y).mpr hxy
          by_cases hyv : y ∈ visited
          · exact Or.inl (List.mem_append.mpr (Or.inl hyv))
          · refine Or.inr ?_
            rw [List.map_append]
            refine List.mem_append.mpr (Or.inr ?_)
            rw [List.map_map]
            have hmemf : y ∈ (successorsOf G x).filter (fun s => decide (s ∉ visited)) :=
              List.mem_filter.mpr ⟨hsu, by simpa using hyv⟩
            simpa using hmemf

theorem bfsLoopF_keys (G : Graph) :
    ∀ (fuel : Nat) (queue : List (String × Nat)) (visited : List String)
      (levels : List (String × Nat)) (res : List (String × Nat) × List String),
      bfsLoopF G fuel queue visited levels = some res →
      ∀ k ∈ akeys res.1, k ∈ akeys levels ∨ k ∈ res.2 := by
  intro fuel
  induction fuel with
  | zero =>
    intro queue visited levels res h
    exact absurd h (by simp [bfsLoopF])
  | succ f ih =>
    intro queue visited levels res hsome k hk
    cases queue with
    | nil =>
      have hres : res = (levels, visited) := by
        have heq : bfsLoopF G (f + 1) [] visited levels = some (levels, visited) := rfl
        rw [heq] at hsome
        exact (Option.some.inj hsome).symm
      subst hres
      exact Or.inl hk
    | cons p q2 =>
      obtain ⟨n, lv⟩ := p
      by_cases hv : n ∈ visited
      · have hstep : bfsLoopF G (f + 1) ((n, lv) :: q2) visited levels =
            bfsLoopF G f q2 visited levels := by
          show (if n ∈ visited then bfsLoopF G f q2 visited levels else _) = _
          rw [if_pos hv]
        rw [hstep] at hsome
        exact ih q2 visited levels res hsome k hk
      · have hstep : bfsLoopF G (f + 1) ((n, lv) :: q2) visited levels =
            bfsLoopF G f
              (q2 ++ ((successorsOf G n).filter (fun s => decide (s ∉ visited))).map
                (fun s => (s, lv + 1)))
              (visited ++ [n])
              (aset levels n (Nat.max (lookupD levels n 0) lv)) := by
          show (if n ∈ visited then _ else _) = _
          rw [if_neg hv]
        rw [hstep] at hsome
        rcases ih _ _ _ res hsome k hk with h | h
        · rw [mem_akeys_aset] at h
          rcases h with h2 | rfl
          · exact Or.inl h2
          · refine Or.inr (bfsLoopF_complete G f _ _ _ res hsome k ?_)
            exact Or.inl (List.mem_append.mpr (Or.inr (List.mem_singleton_self _)))
        · exact Or.inr h

/-- Reachability from a seed set along graph edges. -/
inductive ReachFrom (G : Graph) (roots : List String) : String → Prop where
  | base (n : String) : n ∈ roots → ReachFrom G roots n
  | step (a b : String) : ReachFrom G roots a → (a, b) ∈ G.edges → ReachFrom G roots b

theorem reachFrom_nil (G : Graph) (n : String) (h : ReachFrom G [] n) : False := by
  induction h with
  | base m hm => exact absurd hm (List.not_mem_nil _)
  | step a b _ _ iha => exact iha

/-- The fallback BFS visits every node reachable from its seeds. -/
theorem bfs_visits_reachable (G : Graph) (roots : List String)
    (levels : List (String × Nat)) (n : String)
    (h : ReachFrom G roots n) :
    n ∈ (bfsRun G (roots.map (fun r => (r, 0))) [] levels).2 := by
  obtain ⟨res, hsome, hrun⟩ := bfsRun_cases G (roots.map (fun r => (r, 0))) [] levels
  rw [hrun]
  have hroots : ∀ x ∈ roots, x ∈ res.2 := by
    intro x hx
    apply bfsLoopF_complete G _ _ _ _ res hsome x
    refine Or.inr ?_
    rw [List.map_map]
    simpa using hx
  have hclosed := bfsLoopF_closed G _ _ _ _ res hsome
    (fun x y hx _ => absurd hx (List.not_mem_nil _))
  induction h with
  | base m hm => exact hroots m hm
  | step a b _ hab ihb => exact hclosed a b ihb hab

theorem foldl_processChild_zs_mem :
    ∀ (S : List String) (im : List (String × Nat)) (zs : List String) (c : String),
      c ∈ (S.foldl processChild (im, zs)).2 → c ∈ zs ∨ c ∈ S := by
  intro S
  induction S with
  | nil =>
    intro im zs c h
    exact Or.inl h
  | cons s S2 ih =>
    intro im zs c h
    rw [List.foldl_cons] at h
    by_cases hb : (lookupD (im.map (fun p => if p.1 == s then (s, p.2 - 1) else p)) s 1
        == 0) = true
    · have hres : processChild (im, zs) s =
          ((im.map (fun p => if p.1 == s then (s, p.2 - 1) else p)).filter
            (fun p => p.1 != s), zs ++ [s]) := by
        unfold processChild
        rw [if_pos hb]
      rw [hres] at h
      rcases ih _ _ _ h with h2 | h2
      · rcases List.mem_append.mp h2 with h3 | h3
        · exact Or.inl h3
        · rw [List.mem_singleton] at h3
          subst h3
          exact Or.inr (List.mem_cons_self _ _)
      · exact Or.inr (List.mem_cons_of_mem _ h2)
    · have hres : processChild (im, zs) s =
          (im.map (fun p => if p.1 == s then (s, p.2 - 1) else p), zs) := by
        unfold processChild
        rw [if_neg hb]
      rw [hres] at h
      rcases ih _ _ _ h with h2 | h2
      · exact Or.inl h2
      · exact Or.inr (List.mem_cons_of_mem _ h2)

theorem processGen_zs_mem (G : Graph) :
    ∀ (gen : List String) (im : List (String × Nat)) (zs : List String) (c : String),
      c ∈ (processGen G gen im zs).2 →
      c ∈ zs ∨ ∃ g ∈ gen, (g, c) ∈ G.edges := by
  intro gen
  induction gen with
  | nil =>
    intro im zs c h
    exact Or.inl h
  | cons g gen2 ih =>
    intro im zs c h
    have hstep : processGen G (g :: gen2) im zs =
        processGen G gen2 ((successorsOf G g).foldl processChild (im, zs)).1
          ((successorsOf G g).foldl processChild (im, zs)).2 := rfl
    rw [hstep] at h
    rcases ih _ _ _ h with h2 | ⟨g2, hg2, hedge⟩
    · rcases foldl_processChild_zs_mem _ _ _ _ h2 with h3 | h3
      · exact Or.inl h3
      · exact Or.inr ⟨g, List.mem_cons_self _ _, (mem_successorsOf G g c).mp h3⟩
    · exact Or.inr ⟨g2, List.mem_cons_of_mem _ hg2, hedge⟩

theorem kahnAuxF_reach (G : Graph) :
    ∀ (fuel : Nat) (im : List (String × Nat)) (zero acc : List String)
      (res : List String × Bool),
      kahnAuxF G fuel im zero acc = some res →
      (∀ c ∈ zero, ReachFrom G (zeroFront0 G) c) →
      (∀ c ∈ acc, ReachFrom G (zeroFront0 G) c) →
      ∀ c ∈ res.1, ReachFrom G (zeroFront0 G) c := by
  intro fuel
  induction fuel with
  | zero =>
    intro im zero acc res h
    exact absurd h (by simp [kahnAuxF])
  | succ f ih =>
    intro im zero acc res hsome hz hacc
    cases zero with
    | nil =>
      have hres : res = (acc, im.isEmpty) := by
        have heq : kahnAuxF G (f + 1) im [] acc = some (acc, im.isEmpty) := rfl
        rw [heq] at hsome
        exact (Option.some.inj hsome).symm
      subst hres
      exact hacc
    | cons z zs =>
      have hrec : kahnAuxF G f (processGen G (z :: zs) im []).1
          (processGen G (z :: zs) im []).2 (acc ++ (z :: zs)) = some res := hsome
      apply ih _ _ _ res hrec
      · intro c hc
        rcases processGen_zs_mem G (z :: zs) im [] c hc with h | ⟨g, hg, hedge⟩
        · exact absurd h (List.not_mem_nil _)
        · exact ReachFrom.step g c (hz g hg) hedge
      · intro c hc
        rcases List.mem_append.mp hc with h | h
        · exact hacc c h
        · exact hz c h

theorem kahnOrder_reach (G : Graph) :
    ∀ c ∈ kahnOrder G, ReachFrom G (zeroFront0 G) c := by
  obtain ⟨res, hsome, hrun⟩ := kahnRun_cases G
  have h1 : kahnOrder G = res.1 := by
    unfold kahnOrder
    rw [hrun]
  rw [h1]
  exact kahnAuxF_reach G _ _ _ _ res hsome
    (fun c hc => ReachFrom.base c hc) (fun c hc => absurd hc (List.not_mem_nil _))

theorem levelsTopo_keys_subset (G : Graph) :
    ∀ (ord : List String) (levels : List (String × Nat)) (k : String),
      k ∈ akeys (levelsTopo G ord levels) → k ∈ akeys levels ∨ k ∈ ord := by
  intro ord
  induction ord with
  | nil =>
    intro levels k h
    exact Or.inl h
  | cons n rest ih =>
    intro levels k h
    have hstep : levelsTopo G (n :: rest) levels =
        levelsTopo G rest (aset levels n (if (predsOf G n).isEmpty then 0
          else ((predsOf G n).map (fun p => lookupD levels p 0)).foldl Nat.max 0 + 1)) :=
      rfl
    rw [hstep] at h
    rcases ih _ k h with h2 | h2
    · rw [mem_akeys_aset] at h2
      rcases h2 with h3 | rfl
      · exact Or.inl h3
      · exact Or.inr (List.mem_cons_self _ _)
    · exact Or.inr (List.mem_cons_of_mem _ h2)

theorem lookupD_fillFold :
    ∀ (ns : List String) (ls : List (String × Nat)) (k : String),
      lookupD (ns.foldl (fun ls2 n => if hasKey ls2 n then ls2 else ls2 ++ [(n, 0)]) ls) k 0 =
        lookupD ls k 0 := by
  intro ns
  induction ns with
  | nil => intro ls k; rfl
  | cons n rest ih =>
    intro ls k
    rw [List.foldl_cons]
    by_cases h : hasKey ls n = true
    · rw [if_pos h]
      exact ih ls k
    · rw [if_neg h]
      rw [ih (ls ++ [(n, 0)]) k]
      unfold lookupD
      rw [alookup_append]
      cases hl : alookup ls k with
      | some w => rfl
      | none =>
        simp only []
        rw [alookup_cons]
        by_cases hnk : n = k
        · rw [if_pos hnk]
          rfl
        · rw [if_neg hnk]
          rfl

theorem lookupD_fillZeros (G : Graph) (ls : List (String × Nat)) (k : String) :
    lookupD (fillZeros G ls) k 0 = lookupD ls k 0 :=
  lookupD_fillFold (nodeIds G) ls k

theorem bfsRoots_eq_zeroFront (G : Graph) (h : zeroFront0 G ≠ []) :
    bfsRoots G = zeroFront0 G := by
  have h1 : bfsRoots G = if ((nodeIds G).filter (fun x => inDegree G x == 0)).isEmpty then
      (match nodeIds G with
       | [] => [""]
       | n :: rest => [rest.foldl (fun best m =>
           if inDegree G m < inDegree G best then m else best) n])
    else (nodeIds G).filter (fun x => inDegree G x == 0) := rfl
  have h2 : zeroFront0 G = (nodeIds G).filter (fun x => inDegree G x == 0) := rfl
  rw [h1, ← h2]
  cases hz : zeroFront0 G with
  | nil => exact absurd hz h
  | cons a l => rfl

theorem foldl_minBy (G : Graph) :
    ∀ (rest : List String) (n : String),
      rest.foldl (fun best m => if inDegree G m < inDegree G best then m else best) n
        ∈ n :: rest ∧
      ∀ m ∈ n :: rest,
        inDegree G (rest.foldl (fun best m =>
          if inDegree G m < inDegree G best then m else best) n) ≤ inDegree G m := by
  intro rest
  induction rest with
  | nil =>
    intro n
    constructor
    · exact List.mem_cons_self _ _
    · intro m hm
      have : m = n := by simpa using hm
      subst this
      exact Nat.le_refl _
  | cons r rest2 ih =>
    intro n
    rw [List.foldl_cons]
    obtain ⟨ihmem, ihmin⟩ := ih (if inDegree G r < inDegree G n then r else n)
    constructor
    · rcases List.mem_cons.mp ihmem with h | h
      · rw [h]
        by_cases hc : inDegree G r < inDegree G n
        · rw [if_pos hc]
          exact List.mem_cons_of_mem _ (List.mem_cons_self _ _)
        · rw [if_neg hc]
          exact List.mem_cons_self _ _
      · exact List.mem_cons_of_mem _ (List.mem_cons_of_mem _ h)
    · intro m hm
      have h1 := ihmin _ (List.mem_cons_self _ _)
      rcases List.mem_cons.mp hm with h | h
      · rw [h]
        by_cases hc : inDegree G r < inDegree G n
        · rw [if_pos hc] at h1 ⊢
          exact Nat.le_trans h1 (Nat.le_of_lt hc)
        · rw [if_neg hc] at h1 ⊢
          exact h1
      · rcases List.mem_cons.mp h with h2 | h2
        · rw [h2]
          by_cases hc : inDegree G r < inDegree G n
          · rw [if_pos hc] at h1 ⊢
            exact h1
          · rw [if_neg hc] at h1 ⊢
            exact Nat.le_trans h1 (Nat.le_of_not_lt hc)
        · exact ihmin m (List.mem_cons_of_mem _ h2)

theorem kahnFeasible_nil (G : Graph) (hn : nodeIds G = []) : kahnFeasible G = true := by
  have h1 : indegMap0 G = [] := by
    unfold indegMap0
    rw [hn]
    rfl
  have h2 : zeroFront0 G = [] := by
    unfold zeroFront0
    rw [hn]
    rfl
  unfold kahnFeasible kahnRun
  rw [h1, h2]
  rfl

/-- C6: on a cyclic built graph (where the topological sort raises), the
level computation takes the fallback path: it runs the breadth-first loop
over the partially filled table left by the aborted topological pass,
seeded from every in-degree-zero node, or from the first node of globally
minimum in-degree when no in-degree-zero node exists; the fuel-indexed
loop provably halts with a result; and every node the traversal never
visits ends with level 0. -/
theorem C6_cyclic_fallback (records : List Record)
    (hcyc : kahnFeasible (build_graph records) = false) :
    (calculate_hierarchical_levels (build_graph records) =
      fillZeros (build_graph records)
        (bfs_fallback (build_graph records)
          (levelsTopo (build_graph records) (kahnOrder (build_graph records)) [])).1) ∧
    (zeroFront0 (build_graph records) ≠ [] →
      bfsRoots (build_graph records) = zeroFront0 (build_graph records)) ∧
    (zeroFront0 (build_graph records) = [] →
      ∃ r, bfsRoots (build_graph records) = [r] ∧
        r ∈ nodeIds (build_graph records) ∧
        ∀ m ∈ nodeIds (build_graph records),
          inDegree (build_graph records) r ≤ inDegree (build_graph records) m) ∧
    (∃ res, bfsLoopF (build_graph records)
        (bfsFuel (build_graph records)
          ((bfsRoots (build_graph records)).map (fun r => (r, 0))) [])
        ((bfsRoots (build_graph records)).map (fun r => (r, 0))) []
        (levelsTopo (build_graph records) (kahnOrder (build_graph records)) []) =
          some res ∧
      bfs_fallback (build_graph records)
        (levelsTopo (build_graph records) (kahnOrder (build_graph records)) []) = res) ∧
    (∀ n, n ∉ (bfs_fallback (build_graph records)
        (levelsTopo (build_graph records) (kahnOrder (build_graph records)) [])).2 →
      lookupD (calculate_hierarchical_levels (build_graph records)) n 0 = 0) := by
  generalize hGeq : build_graph records = G
  rw [hGeq] at hcyc
  have hne : kahnFeasible G ≠ true := by
    rw [hcyc]
    exact Bool.false_ne_true
  have hcalc : calculate_hierarchical_levels G =
      fillZeros G (bfs_fallback G (levelsTopo G (kahnOrder G) [])).1 := by
    unfold calculate_hierarchical_levels
    rw [if_neg hne]
  refine ⟨hcalc, ?_, ?_, ?_, ?_⟩
  · intro hnz
    exact bfsRoots_eq_zeroFront G hnz
  · intro hz
    cases hn : nodeIds G with
    | nil =>
      exfalso
      have hfeas := kahnFeasible_nil G hn
      rw [hcyc] at hfeas
      exact Bool.false_ne_true hfeas
    | cons n0 rest =>
      refine ⟨rest.foldl (fun best m =>
          if inDegree G m < inDegree G best then m else best) n0, ?_, ?_, ?_⟩
      · have h1 : bfsRoots G =
            if ((nodeIds G).filter (fun x => inDegree G x == 0)).isEmpty then
              (match nodeIds G with
               | [] => [""]
               | n :: rest => [rest.foldl (fun best m =>
                   if inDegree G m < inDegree G best then m else best) n])
            else (nodeIds G).filter (fun x => inDegree G x == 0) := rfl
        have h2 : ((nodeIds G).filter (fun x => inDegree G x == 0)) = [] := hz
        rw [h1, h2, hn]
        rfl
      · exact (foldl_minBy G rest n0).1
      · intro m hm
        exact (foldl_minBy G rest n0).2 m hm
  · exact bfsRun_cases G ((bfsRoots G).map (fun r => (r, 0))) []
      (levelsTopo G (kahnOrder G) [])
  · intro n hn
    rw [hcalc, lookupD_fillZeros]
    have hkeys : n ∉ akeys (bfs_fallback G (levelsTopo G (kahnOrder G) [])).1 := by
      intro hmem
      obtain ⟨res, hsome, hrun⟩ := bfsRun_cases G
        ((bfsRoots G).map (fun r => (r, 0))) [] (levelsTopo G (kahnOrder G) [])
      have hfb : bfs_fallback G (levelsTopo G (kahnOrder G) []) = res := hrun
      rw [hfb] at hmem hn
      rcases bfsLoopF_keys G _ _ _ _ res hsome n hmem with h | h
      · rcases levelsTopo_keys_subset G (kahnOrder G) [] n h with h2 | h2
        · exact absurd h2 (by simp [akeys])
        · have hreach := kahnOrder_reach G n h2
          cases hzf : zeroFront0 G with
          | nil =>
            rw [hzf] at hreach
            exact reachFrom_nil G n hreach
          | cons z zs =>
            have hroots : bfsRoots G = zeroFront0 G :=
              bfsRoots_eq_zeroFront G (by rw [hzf]; simp)
            have hv := bfs_visits_reachable G (bfsRoots G)
              (levelsTopo G (kahnOrder G) []) n (by rw [hroots]; exact hreach)
            rw [hrun] at hv
            exact hn hv
      · exact hn h
    unfold lookupD
    rw [alookup_eq_none.mpr hkeys]
    rfl

/-- C6 witness: the two-node cycle takes the fallback path. -/
theorem C6_cyclic_fallback_witness :
    kahnFeasible (build_graph [mkRec "RM-001" (some "RM-002"),
        mkRec "RM-002" (some "RM-001")]) = false ∧
    calculate_hierarchical_levels (build_graph [mkRec "RM-001" (some "RM-002"),
        mkRec "RM-002" (some "RM-001")]) =
      fillZeros (build_graph [mkRec "RM-001" (some "RM-002"),
          mkRec "RM-002" (some "RM-001")])
        (bfs_fallback (build_graph [mkRec "RM-001" (some "RM-002"),
            mkRec "RM-002" (some "RM-001")])
          (levelsTopo (build_graph [mkRec "RM-001" (some "RM-002"),
              mkRec "RM-002" (some "RM-001")])
            (kahnOrder (build_graph [mkRec "RM-001" (some "RM-002"),
              mkRec "RM-002" (some "RM-001")])) [])).1 :=
  ⟨by decide, (C6_cyclic_fallback [mkRec "RM-001" (some "RM-002"),
      mkRec "RM-002" (some "RM-001")] (by decide)).1⟩
